import Mathlib

/-!
orca: release dependency and delta resolution (`pkg/utils/chart.go`)

A shallow embedding of the release record, the dependency pruning primitive,
the cycle detector, the delta resolver and the override merger of
`pkg/utils/chart.go`, followed by theorems about them.

Modelling conventions.

* A Go slice is a Lean `List`; every index expression and every slice
  expression is checked, and an out-of-range access is the fault
  `Fault.indexOutOfRange` (the Go runtime panic).  `log.Fatal` is the fault
  `Fault.fatal`.
* `Dependencies` slices of distinct releases do not share a backing array, so
  a release's dependency list is a value.  The functions are modelled by the
  slice they return; the stale contents they leave in the caller's backing
  arrays are not part of the model.
* Go `int` values that can be `-1` (`index`, `endLen`) are `Int`; loop counters
  are `Nat`.  Lengths stay far below `2^63`, so no wrap-around is modelled.
* The helpers `Contains` and `SplitInTwo` live outside `chart.go`.  `Contains`
  is modelled as a membership test; `OverrideReleases` takes `SplitInTwo` as the
  parameter `split`, and a model of it is used where a concrete override string
  is evaluated.
* The `for` loop of `CheckCircularDependencies` is run with a fuel counter;
  running out of fuel is the fault `Fault.outOfFuel`, and the function supplies
  `len(releases) + 1` passes.
-/

namespace Orca

/-- The ways a run can fail to return. -/
inductive Fault where
  | fatal
  | indexOutOfRange
  | outOfFuel
deriving DecidableEq, Repr

/-- The struct `ReleaseSpec`. -/
structure ReleaseSpec where
  ReleaseName : String
  ChartName : String
  ChartVersion : String
  Dependencies : List String
deriving DecidableEq, Repr

/-- The method `func (a ReleaseSpec) Equals(b ReleaseSpec) bool`. -/
def ReleaseSpec.Equals (a b : ReleaseSpec) : Bool :=
  if a.ReleaseName = b.ReleaseName ∧ a.ChartName = b.ChartName ∧
      a.ChartVersion = b.ChartVersion then true else false

/-- Modelled from the spec: the helper `Contains` of package `utils` is called by
`RemoveChartFromDependencies` but defined outside `chart.go`; the spec reads it as
"`dependencies` contains that chartName", a linear membership test. -/
def Contains : List String → String → Bool
  | [], _ => false
  | elem :: rest, name => if elem = name then true else Contains rest name

/-- The index expression `xs[i]` as a read. -/
def getAt {α : Type} (xs : List α) (i : Int) : Except Fault α :=
  if 0 ≤ i then
    match xs.get? i.toNat with
    | some x => .ok x
    | none => .error .indexOutOfRange
  else .error .indexOutOfRange

/-- The assignment `xs[i] = v`. -/
def setAt {α : Type} (xs : List α) (i : Int) (v : α) : Except Fault (List α) :=
  if 0 ≤ i ∧ i < (xs.length : Int) then .ok (xs.set i.toNat v)
  else .error .indexOutOfRange

/-- The slice expression `xs[:hi]`, with `hi` at most the length. -/
def sliceTo {α : Type} (xs : List α) (hi : Int) : Except Fault (List α) :=
  if 0 ≤ hi ∧ hi ≤ (xs.length : Int) then .ok (xs.take hi.toNat)
  else .error .indexOutOfRange

/-- The search loop `for i, elem := range dependant.Dependencies` of
`RemoveChartFromDependencies`: `index` is overwritten at every match. -/
def findIndexLoop (name : String) : List String → Nat → Int → Int
  | [], _, index => index
  | elem :: rest, i, index =>
    findIndexLoop name rest (i + 1) (if elem = name then (i : Int) else index)

/-- The body of the `for _, dependant := range charts` loop of
`RemoveChartFromDependencies`, up to the `append`: the value of `dependant`
that is appended. -/
def pruneDependant (dependant : ReleaseSpec) (name : String) : Except Fault ReleaseSpec :=
  if Contains dependant.Dependencies name then do
    let index := findIndexLoop name dependant.Dependencies 0 (-1)
    if index = -1 then throw Fault.fatal
    let last ← getAt dependant.Dependencies ((dependant.Dependencies.length : Int) - 1)
    let deps ← setAt dependant.Dependencies index last
    let deps ← setAt deps ((deps.length : Int) - 1) ""
    let deps ← sliceTo deps ((deps.length : Int) - 1)
    pure { dependant with Dependencies := deps }
  else pure dependant

/-- The loop of `RemoveChartFromDependencies` over `charts`, with the output
slice `outCharts` as accumulator. -/
def removeChartLoop (name : String) :
    List ReleaseSpec → List ReleaseSpec → Except Fault (List ReleaseSpec)
  | [], outCharts => pure outCharts
  | dependant :: rest, outCharts => do
    let dependant ← pruneDependant dependant name
    removeChartLoop name rest (outCharts ++ [dependant])

/-- The function `RemoveChartFromDependencies`. -/
def RemoveChartFromDependencies (charts : List ReleaseSpec) (name : String) :
    Except Fault (List ReleaseSpec) :=
  removeChartLoop name charts []

/-- The function `RemoveChartFromCharts`. -/
def RemoveChartFromCharts (charts : List ReleaseSpec) (index : Int) :
    Except Fault (List ReleaseSpec) := do
  let last ← getAt charts ((charts.length : Int) - 1)
  let charts ← setAt charts index last
  sliceTo charts ((charts.length : Int) - 1)

/-- The inner loop of `GetReleasesDelta` over `toReleases`: the `toRelease` at
which the loop breaks, or `none` when `exists` stays false. -/
def findEqual (fromRelease : ReleaseSpec) : List ReleaseSpec → Option ReleaseSpec
  | [] => none
  | toRelease :: rest =>
    if fromRelease.Equals toRelease then some toRelease else findEqual fromRelease rest

/-- The first loop of `GetReleasesDelta`, with `releasesDelta` and
`releasesExists` as accumulators. -/
def deltaScan (toReleases : List ReleaseSpec) :
    List ReleaseSpec → List ReleaseSpec → List ReleaseSpec → List ReleaseSpec × List ReleaseSpec
  | [], releasesDelta, releasesExists => (releasesDelta, releasesExists)
  | fromRelease :: rest, releasesDelta, releasesExists =>
    match findEqual fromRelease toReleases with
    | some toRelease => deltaScan toReleases rest releasesDelta (releasesExists ++ [toRelease])
    | none => deltaScan toReleases rest (releasesDelta ++ [fromRelease]) releasesExists

/-- The second loop of `GetReleasesDelta`, over `releasesExists`. -/
def deltaPrune : List ReleaseSpec → List ReleaseSpec → Except Fault (List ReleaseSpec)
  | [], releasesDelta => pure releasesDelta
  | releaseExists :: rest, releasesDelta => do
    let releasesDelta ← RemoveChartFromDependencies releasesDelta releaseExists.ChartName
    deltaPrune rest releasesDelta

/-- The function `GetReleasesDelta`. -/
def GetReleasesDelta (fromReleases toReleases : List ReleaseSpec) :
    Except Fault (List ReleaseSpec) :=
  let scanned := deltaScan toReleases fromReleases [] []
  deltaPrune scanned.2 scanned.1

/-- The scan loop `for i := 0; i < len(releases); i++` of
`CheckCircularDependencies`, started at position `i` of the slice: the value of
`indexesToRemove`. -/
def scanReady : List ReleaseSpec → Nat → List Nat
  | [], _ => []
  | r :: rest, i =>
    if r.Dependencies.length ≠ 0 then scanReady rest (i + 1)
    else i :: scanReady rest (i + 1)

/-- The processing loop `for i := len(indexesToRemove) - 1; i >= 0; i--` of
`CheckCircularDependencies`; the argument lists the entries of
`indexesToRemove` in the order the loop visits them (last first). -/
def processReady : List Nat → List ReleaseSpec → Except Fault (List ReleaseSpec)
  | [], releases => pure releases
  | idx :: rest, releases => do
    let r ← getAt releases (idx : Int)
    let releases ← RemoveChartFromDependencies releases r.ChartName
    let releases ← RemoveChartFromCharts releases (idx : Int)
    processReady rest releases

/-- The outer loop `for startLen != endLen && endLen != 0` of
`CheckCircularDependencies` together with the final test, with a bound on the
number of passes. -/
def checkLoop : Nat → List ReleaseSpec → Int → Int → Except Fault Bool
  | fuel, releases, startLen, endLen =>
    if startLen ≠ endLen ∧ endLen ≠ 0 then
      match fuel with
      | 0 => throw Fault.outOfFuel
      | fuel + 1 => do
        let startLen : Int := releases.length
        let indexesToRemove := scanReady releases 0
        let releases ← processReady indexesToRemove.reverse releases
        let endLen : Int := releases.length
        checkLoop fuel releases startLen endLen
    else
      if endLen ≠ 0 then pure true else pure false

/-- The function `CheckCircularDependencies`. -/
def CheckCircularDependencies (releases : List ReleaseSpec) : Except Fault Bool :=
  checkLoop (releases.length + 1) releases releases.length (-1)

/-! ## Pure characterisations, the dependency graph and sample inputs -/

/-- The dependency list `pruneDependant` leaves in a release, as a total function. -/
def prunedDeps (name : String) (deps : List String) : List String :=
  if Contains deps name then
    (((deps.set (findIndexLoop name deps 0 (-1)).toNat (deps.getLast?.getD "")).set
      (deps.length - 1) "").take (deps.length - 1))
  else deps

/-- One release after pruning `name`. -/
def prunedRelease (name : String) (r : ReleaseSpec) : ReleaseSpec :=
  { r with Dependencies := prunedDeps name r.Dependencies }

/-- The identity key of a release: the three fields `Equals` compares. -/
def ReleaseSpec.identity (r : ReleaseSpec) : String × String × String :=
  (r.ReleaseName, r.ChartName, r.ChartVersion)

/-- A release of environment `e` with version `1`, as `initReleaseSpec` names it. -/
def rel (name : String) (deps : List String) : ReleaseSpec :=
  { ReleaseName := "e-" ++ name, ChartName := name, ChartVersion := "1", Dependencies := deps }

/-- The `fromReleases` entries the first loop of `GetReleasesDelta` puts into
`releasesDelta`: those for which no `toRelease` is `Equals`. -/
def unmatched (fromReleases toReleases : List ReleaseSpec) : List ReleaseSpec :=
  fromReleases.filter (fun f => !toReleases.any (fun t => f.Equals t))

/-- The chart names of the `fromReleases` entries that have an `Equals` release
in `toReleases` (the satisfied charts). -/
def satisfiedNames (fromReleases toReleases : List ReleaseSpec) : List String :=
  (fromReleases.filter (fun f => toReleases.any (fun t => f.Equals t))).map
    (fun f => f.ChartName)

/-- A desired state that lists the same release twice. -/
def twiceFrom : List ReleaseSpec := [rel "db" [], rel "db" []]

/-- One visit of the processing loop of `CheckCircularDependencies` at a position
that holds a release `x` without dependencies: `x` leaves the collection and its
chart name is pruned from the others; the survivors may change places. -/
def ReadyStep (before after : List ReleaseSpec) : Prop :=
  ∃ pre x post, before = pre ++ x :: post ∧ x.Dependencies = [] ∧
    after.Perm ((pre ++ post).map (prunedRelease x.ChartName))

/-- Scenario C: `A` without dependencies, `B` depending on `A`, `C` on `B`. -/
def scenarioC : List ReleaseSpec := [rel "A" [], rel "B" ["A"], rel "C" ["B"]]

/-- Scenario B: `A` depending on `B` and `B` on `A`. -/
def scenarioB : List ReleaseSpec := [rel "A" ["B"], rel "B" ["A"]]

/-- A release list with a dangling reference: `B` depends on `Z`, which is no
release of the list. -/
def danglingList : List ReleaseSpec := [rel "A" [], rel "B" ["Z"]]

/-- The indexes still to visit are strictly below the one visited now and point
at releases without dependencies. -/
def Pending (idxs : List Nat) (M : List ReleaseSpec) : Prop :=
  idxs.Pairwise (fun a b => b < a) ∧
    ∀ k ∈ idxs, ∃ r, M[k]? = some r ∧ r.Dependencies = []

/-- A set `P` of chart names that the cycle detector can never clear: every
release named in `P` depends on a name in `P`, and some release depends on a
name in `P`. -/
def Stuck (P : String → Prop) (M : List ReleaseSpec) : Prop :=
  (∀ r ∈ M, P r.ChartName → ∃ d ∈ r.Dependencies, P d) ∧
    ∃ r ∈ M, ∃ d ∈ r.Dependencies, P d

/-- The body of the loop of `RemoveChartFromDependencies` with the helper
`Contains` taken as a parameter: the same statements as `pruneDependant`. -/
def pruneDependantWith (contains : List String → String → Bool)
    (dependant : ReleaseSpec) (name : String) : Except Fault ReleaseSpec :=
  if contains dependant.Dependencies name then do
    let index := findIndexLoop name dependant.Dependencies 0 (-1)
    if index = -1 then throw Fault.fatal
    let last ← getAt dependant.Dependencies ((dependant.Dependencies.length : Int) - 1)
    let deps ← setAt dependant.Dependencies index last
    let deps ← setAt deps ((deps.length : Int) - 1) ""
    let deps ← sliceTo deps ((deps.length : Int) - 1)
    pure { dependant with Dependencies := deps }
  else pure dependant

/-- The loop of `RemoveChartFromDependencies` with the helper `Contains` taken as
a parameter. -/
def removeChartLoopWith (contains : List String → String → Bool) (name : String) :
    List ReleaseSpec → List ReleaseSpec → Except Fault (List ReleaseSpec)
  | [], outCharts => pure outCharts
  | dependant :: rest, outCharts => do
    let dependant ← pruneDependantWith contains dependant name
    removeChartLoopWith contains name rest (outCharts ++ [dependant])

/-- The function `RemoveChartFromDependencies` with the helper `Contains` taken
as a parameter. -/
def RemoveChartFromDependenciesWith (contains : List String → String → Bool)
    (charts : List ReleaseSpec) (name : String) : Except Fault (List ReleaseSpec) :=
  removeChartLoopWith contains name charts []

/-! ## The override merger -/

/-- The cut of a character list at the first occurrence of the separator `sep`:
the part before it and the part after it. -/
def cutAtSep (sep : List Char) : List Char → List Char × List Char
  | [] => ([], [])
  | c :: cs =>
    if sep.isPrefixOf (c :: cs) then ([], (c :: cs).drop sep.length)
    else ((c :: (cutAtSep sep cs).1), (cutAtSep sep cs).2)

/-- Modelled from the spec: the helper `SplitInTwo` of package `utils` is called by
`OverrideReleases` but defined outside `chart.go`; the spec reads an override
string as `chartName=version`.  This model cuts the string at the first
occurrence of the separator; a string without the separator, which the spec does
not cover, gives the whole string and an empty second part. -/
def SplitInTwo (s sep : String) : String × String :=
  (String.mk (cutAtSep sep.data s.data).1, String.mk (cutAtSep sep.data s.data).2)

/-- The inner loop `for i := 0; i < len(overrides); i++` of the first loop of
`OverrideReleases`, from position `i` on, with the loop variable `r` and the
slice `overrideFound` as state.  The helper `SplitInTwo` is the parameter
`split`. -/
def overrideInner (split : String → String → String × String) :
    List String → Nat → ReleaseSpec → List Bool → Except Fault (ReleaseSpec × List Bool)
  | [], _, r, overrideFound => pure (r, overrideFound)
  | override :: rest, i, r, overrideFound =>
    let oChartName := (split override "=").1
    let oChartVersion := (split override "=").2
    if r.ChartName = oChartName ∧ r.ChartVersion ≠ oChartVersion then do
      let overrideFound ← setAt overrideFound (i : Int) true
      overrideInner split rest (i + 1)
        { r with ChartName := oChartName, ChartVersion := oChartVersion } overrideFound
    else overrideInner split rest (i + 1) r overrideFound

/-- The first loop `for _, r := range releases` of `OverrideReleases`, with
`outReleases` and `overrideFound` as accumulators. -/
def overrideOuter (split : String → String → String × String) (overrides : List String) :
    List ReleaseSpec → List ReleaseSpec → List Bool →
      Except Fault (List ReleaseSpec × List Bool)
  | [], outReleases, overrideFound => pure (outReleases, overrideFound)
  | r :: rest, outReleases, overrideFound => do
    let step ← overrideInner split overrides 0 r overrideFound
    overrideOuter split overrides rest (outReleases ++ [step.1]) step.2

/-- The second loop `for i := 0; i < len(overrides); i++` of `OverrideReleases`,
from position `i` on. -/
def appendMissing (split : String → String → String × String) (env : String)
    (overrideFound : List Bool) : List String → Nat → List ReleaseSpec →
      Except Fault (List ReleaseSpec)
  | [], _, outReleases => pure outReleases
  | override :: rest, i, outReleases => do
    let found ← getAt overrideFound (i : Int)
    if found then appendMissing split env overrideFound rest (i + 1) outReleases
    else
      let oChartName := (split override "=").1
      let oChartVersion := (split override "=").2
      let r : ReleaseSpec :=
        { ReleaseName := env ++ "-" ++ oChartName, ChartName := oChartName,
          ChartVersion := oChartVersion, Dependencies := [] }
      appendMissing split env overrideFound rest (i + 1) (outReleases ++ [r])

/-- The function `OverrideReleases`; the helper `SplitInTwo` is the parameter
`split`. -/
def OverrideReleases (split : String → String → String × String)
    (releases : List ReleaseSpec) (overrides : List String) (env : String) :
    Except Fault (List ReleaseSpec) :=
  if overrides.length = 0 then pure releases
  else do
    let overrideFound := List.replicate overrides.length false
    let merged ← overrideOuter split overrides releases [] overrideFound
    appendMissing split env merged.2 overrides 0 merged.1

/-- The test of the inner loop of `OverrideReleases`: the override names the chart
of `r` and proposes another version. -/
def fires (split : String → String → String × String) (r : ReleaseSpec) (o : String) : Bool :=
  decide (r.ChartName = (split o "=").1 ∧ r.ChartVersion ≠ (split o "=").2)

/-- The effect of one turn of the inner loop of `OverrideReleases` on `r`. -/
def applyOverride (split : String → String → String × String) (r : ReleaseSpec)
    (o : String) : ReleaseSpec :=
  if fires split r o then
    { r with ChartName := (split o "=").1, ChartVersion := (split o "=").2 }
  else r

/-- The effect of the inner loop of `OverrideReleases` on the flags of the
overrides it runs through. -/
def markOverrides (split : String → String → String × String) :
    List String → ReleaseSpec → List Bool → List Bool
  | o :: os, r, b :: bs =>
    (b || fires split r o) :: markOverrides split os (applyOverride split r o) bs
  | _, _, bs => bs

/-- The release the second loop of `OverrideReleases` appends for an override. -/
def synthesize (split : String → String → String × String) (env : String) (o : String) :
    ReleaseSpec :=
  { ReleaseName := env ++ "-" ++ (split o "=").1, ChartName := (split o "=").1,
    ChartVersion := (split o "=").2, Dependencies := [] }

/-- Scenario D, the baseline: chart `x` at version 1 in environment `prod`. -/
def scenarioDBaseline : List ReleaseSpec :=
  [ { ReleaseName := "prod-x", ChartName := "x", ChartVersion := "1", Dependencies := [] } ]

/-! ## Theorems -/

theorem contains_iff (deps : List String) (name : String) :
    Contains deps name = true ↔ name ∈ deps := by
  induction deps with
  | nil => simp [Contains]
  | cons e es ih =>
    by_cases h : e = name
    · simp [Contains, h]
    · have h2 : ¬ name = e := fun h3 => h h3.symm
      simp [Contains, h, h2, ih]

theorem findIndexLoop_not_mem (name : String) (deps : List String) (i : Nat) (index : Int)
    (h : name ∉ deps) : findIndexLoop name deps i index = index := by
  induction deps generalizing i index with
  | nil => rfl
  | cons e es ih =>
    have he : ¬ e = name := fun h3 => h (by simp [h3])
    have hes : name ∉ es := fun h3 => h (by simp [h3])
    simp [findIndexLoop, he, ih _ _ hes]

theorem findIndexLoop_split (name : String) (pre post : List String) (i : Nat) (index : Int)
    (h : name ∉ post) :
    findIndexLoop name (pre ++ name :: post) i index = ((i + pre.length : Nat) : Int) := by
  induction pre generalizing i index with
  | nil => simp [findIndexLoop, findIndexLoop_not_mem _ _ _ _ h]
  | cons e es ih =>
    rw [List.cons_append, findIndexLoop, ih]
    simp only [List.length_cons]
    congr 1
    omega

theorem exists_last_split (name : String) (deps : List String) (h : name ∈ deps) :
    ∃ pre post, deps = pre ++ name :: post ∧ name ∉ post := by
  induction deps with
  | nil => simp at h
  | cons e es ih =>
    by_cases hes : name ∈ es
    · obtain ⟨pre, post, hd, hn⟩ := ih hes
      exact ⟨e :: pre, post, by simp [hd], hn⟩
    · have : name = e := by simpa [hes] using h
      exact ⟨[], es, by simp [this], hes⟩

theorem prunedDeps_not_mem (name : String) (deps : List String) (h : name ∉ deps) :
    prunedDeps name deps = deps := by
  have hc : Contains deps name = false := by
    cases hh : Contains deps name with
    | false => rfl
    | true => exact absurd ((contains_iff _ _).1 hh) h
  simp [prunedDeps, hc]

theorem prunedDeps_last (name : String) (pre : List String) :
    prunedDeps name (pre ++ [name]) = pre := by
  have hc : Contains (pre ++ [name]) name = true := (contains_iff _ _).2 (by simp)
  have hi := findIndexLoop_split name pre [] 0 (-1) (by simp)
  simp only [Nat.zero_add] at hi
  simp [prunedDeps, hc, hi]

theorem prunedDeps_inner (name z : String) (pre mid : List String)
    (h : name ∉ mid ++ [z]) :
    prunedDeps name (pre ++ name :: (mid ++ [z])) = pre ++ z :: mid := by
  have hc : Contains (pre ++ name :: (mid ++ [z])) name = true :=
    (contains_iff _ _).2 (by simp)
  have hi := findIndexLoop_split name pre (mid ++ [z]) 0 (-1) h
  simp only [Nat.zero_add] at hi
  have hlast : (pre ++ name :: (mid ++ [z])).getLast? = some z := by
    rw [show pre ++ name :: (mid ++ [z]) = (pre ++ name :: mid) ++ [z] by simp]
    exact List.getLast?_concat _
  have hlen : (pre ++ name :: (mid ++ [z])).length - 1 = (pre ++ z :: mid).length := by
    simp
  rw [prunedDeps, if_pos hc, hi, hlast, hlen]
  simp only [Int.toNat_ofNat, Option.getD_some]
  rw [List.set_append_right _ _ (le_refl _)]
  simp only [Nat.sub_self, List.set_cons_zero]
  rw [show pre ++ z :: (mid ++ [z]) = (pre ++ z :: mid) ++ [z] by simp]
  rw [List.set_append_right _ _ (le_refl _)]
  simp only [Nat.sub_self, List.set_cons_zero]
  rw [List.take_left]

/-! ## The checked accesses never fault inside the primitives -/

theorem getAt_nat {α : Type} (xs : List α) (i : Nat) (x : α) (h : xs[i]? = some x) :
    getAt xs (i : Int) = .ok x := by
  simp [getAt, h]

theorem setAt_nat {α : Type} (xs : List α) (i : Nat) (v : α) (h : i < xs.length) :
    setAt xs (i : Int) v = .ok (xs.set i v) := by
  simp [setAt, h]

theorem sliceTo_nat {α : Type} (xs : List α) (n : Nat) (h : n ≤ xs.length) :
    sliceTo xs (n : Int) = .ok (xs.take n) := by
  simp [sliceTo, h]

theorem pred_cast (n : Nat) (h : 0 < n) : (n : Int) - 1 = ((n - 1 : Nat) : Int) := by
  omega

theorem getAt_last {α : Type} (xs : List α) (d : α) (h : xs ≠ []) :
    getAt xs ((xs.length : Int) - 1) = .ok (xs.getLast?.getD d) := by
  have hpos : 0 < xs.length := List.length_pos.2 h
  rw [pred_cast _ hpos]
  apply getAt_nat
  rw [List.getLast?_eq_getElem?]
  have : xs.length - 1 < xs.length := by omega
  simp [List.getElem?_eq_getElem this]

theorem pruneDependant_eq (r : ReleaseSpec) (name : String) :
    pruneDependant r name = .ok (prunedRelease name r) := by
  by_cases hm : name ∈ r.Dependencies
  · obtain ⟨pre, post, hd, hn⟩ := exists_last_split name _ hm
    have hc : Contains r.Dependencies name = true := (contains_iff _ _).2 hm
    have hi : findIndexLoop name r.Dependencies 0 (-1) = (pre.length : Int) := by
      rw [hd, findIndexLoop_split name pre post 0 (-1) hn]; simp
    have hne : r.Dependencies ≠ [] := by rw [hd]; simp
    have hpos : 0 < r.Dependencies.length := List.length_pos.2 hne
    have hlt : pre.length < r.Dependencies.length := by rw [hd]; simp
    have hne1 : (pre.length : Int) ≠ -1 := by omega
    simp only [pruneDependant, hc, if_true, hi, prunedRelease, prunedDeps]
    rw [getAt_last _ "" hne]
    simp only [hne1, if_false, bind, Except.bind, pure, Except.pure]
    rw [setAt_nat _ _ _ hlt]
    simp only [List.length_set]
    rw [pred_cast _ hpos, setAt_nat _ _ _ (by simp; omega)]
    simp only [List.length_set]
    rw [pred_cast _ hpos, sliceTo_nat _ _ (by simp)]
    simp
  · have hc : Contains r.Dependencies name = false := by
      cases hh : Contains r.Dependencies name with
      | false => rfl
      | true => exact absurd ((contains_iff _ _).1 hh) hm
    simp [pruneDependant, hc, prunedRelease, prunedDeps, pure, Except.pure]

theorem removeChartLoop_eq (name : String) (charts out : List ReleaseSpec) :
    removeChartLoop name charts out = .ok (out ++ charts.map (prunedRelease name)) := by
  induction charts generalizing out with
  | nil => simp [removeChartLoop, pure, Except.pure]
  | cons c cs ih =>
    simp [removeChartLoop, pruneDependant_eq, bind, Except.bind, ih]

theorem RemoveChartFromDependencies_eq (charts : List ReleaseSpec) (name : String) :
    RemoveChartFromDependencies charts name = .ok (charts.map (prunedRelease name)) := by
  simp [RemoveChartFromDependencies, removeChartLoop_eq]
/-! ## The pruning primitive: what it removes, what it keeps -/

theorem prunedDeps_split (name : String) (pre post : List String) (h : name ∉ post) :
    (post = [] ∧ prunedDeps name (pre ++ name :: post) = pre) ∨
    (∃ mid z, post = mid ++ [z] ∧ prunedDeps name (pre ++ name :: post) = pre ++ z :: mid) := by
  rcases List.eq_nil_or_concat post with hp | ⟨mid, z, hp⟩
  · left
    subst hp
    exact ⟨rfl, prunedDeps_last name pre⟩
  · right
    rw [List.concat_eq_append] at hp
    subst hp
    exact ⟨mid, z, rfl, prunedDeps_inner name z pre mid h⟩

theorem prunedDeps_perm_split (name : String) (pre post : List String) (h : name ∉ post) :
    (prunedDeps name (pre ++ name :: post)).Perm (pre ++ post) := by
  rcases prunedDeps_split name pre post h with ⟨hp, he⟩ | ⟨mid, z, hp, he⟩
  · rw [he, hp]; simp
  · rw [he, hp]
    have h1 : (z :: mid).Perm (mid ++ [z]) := by
      simpa using (List.perm_append_comm : ([z] ++ mid).Perm (mid ++ [z]))
    exact List.Perm.append_left pre h1

theorem prunedDeps_perm_erase (name : String) (deps : List String) :
    (prunedDeps name deps).Perm (deps.erase name) := by
  by_cases hm : name ∈ deps
  · obtain ⟨pre, post, hd, hn⟩ := exists_last_split name deps hm
    have h1 := prunedDeps_perm_split name pre post hn
    have h2 : (pre ++ name :: post).Perm (name :: (pre ++ post)) := List.perm_middle
    have h3 := h2.erase name
    rw [List.erase_cons_head] at h3
    rw [hd]
    exact h1.trans h3.symm
  · rw [prunedDeps_not_mem name deps hm, List.erase_of_not_mem hm]

theorem prunedRelease_identity (name : String) (r : ReleaseSpec) :
    (prunedRelease name r).ReleaseName = r.ReleaseName ∧
    (prunedRelease name r).ChartName = r.ChartName ∧
    (prunedRelease name r).ChartVersion = r.ChartVersion := ⟨rfl, rfl, rfl⟩

/-- C10: `RemoveChartFromDependencies` returns a list of the same length whose
i-th release has the `ReleaseName`, `ChartName` and `ChartVersion` of the i-th
input release. -/
theorem RemoveChartFromDependencies_frame (charts : List ReleaseSpec) (name : String) :
    ∃ out, RemoveChartFromDependencies charts name = .ok out ∧
      out.length = charts.length ∧
      ∀ (i : Nat) (r : ReleaseSpec), charts[i]? = some r →
        ∃ r', out[i]? = some r' ∧ r'.ReleaseName = r.ReleaseName ∧
          r'.ChartName = r.ChartName ∧ r'.ChartVersion = r.ChartVersion := by
  refine ⟨_, RemoveChartFromDependencies_eq charts name, by simp, ?_⟩
  intro i r hr
  exact ⟨prunedRelease name r, by simp [hr], rfl, rfl, rfl⟩
/-! ## The delta resolver -/

theorem equals_iff_identity (a b : ReleaseSpec) :
    a.Equals b = true ↔ a.identity = b.identity := by
  simp [ReleaseSpec.Equals, ReleaseSpec.identity]

theorem findEqual_none (f : ReleaseSpec) (to_ : List ReleaseSpec) :
    findEqual f to_ = none ↔ to_.any (fun t => f.Equals t) = false := by
  induction to_ with
  | nil => simp [findEqual]
  | cons t ts ih =>
    by_cases h : f.Equals t = true
    · simp [findEqual, h]
    · simp [findEqual, h, ih]

theorem findEqual_some (f t : ReleaseSpec) (to_ : List ReleaseSpec)
    (h : findEqual f to_ = some t) : f.Equals t = true ∧ t ∈ to_ := by
  induction to_ with
  | nil => simp [findEqual] at h
  | cons u us ih =>
    by_cases hu : f.Equals u = true
    · simp [findEqual, hu] at h
      subst h
      exact ⟨hu, by simp⟩
    · simp [findEqual, hu] at h
      exact ⟨(ih h).1, by simp [(ih h).2]⟩

theorem deltaScan_fst (to_ from_ delta ex : List ReleaseSpec) :
    (deltaScan to_ from_ delta ex).1 = delta ++ unmatched from_ to_ := by
  induction from_ generalizing delta ex with
  | nil => simp [deltaScan, unmatched]
  | cons f fs ih =>
    cases hf : findEqual f to_ with
    | none =>
      have h := (findEqual_none f to_).1 hf
      simp only [deltaScan, hf, ih]
      simp [unmatched, List.filter_cons, h]
    | some t =>
      have h : to_.any (fun t => f.Equals t) = true := by
        cases hh : to_.any (fun t => f.Equals t) with
        | true => rfl
        | false => rw [(findEqual_none f to_).2 hh] at hf; cases hf
      simp only [deltaScan, hf, ih]
      simp [unmatched, List.filter_cons, h]

theorem deltaScan_snd_names (to_ from_ delta ex : List ReleaseSpec) :
    (deltaScan to_ from_ delta ex).2.map (fun r => r.ChartName) =
      ex.map (fun r => r.ChartName) ++ satisfiedNames from_ to_ := by
  induction from_ generalizing delta ex with
  | nil => simp [deltaScan, satisfiedNames]
  | cons f fs ih =>
    cases hf : findEqual f to_ with
    | none =>
      have h := (findEqual_none f to_).1 hf
      simp only [deltaScan, hf, ih]
      simp [satisfiedNames, List.filter_cons, h]
    | some t =>
      have h : to_.any (fun t => f.Equals t) = true := by
        cases hh : to_.any (fun t => f.Equals t) with
        | true => rfl
        | false => rw [(findEqual_none f to_).2 hh] at hf; cases hf
      have hn : t.ChartName = f.ChartName := by
        have := (equals_iff_identity f t).1 (findEqual_some f t to_ hf).1
        simp [ReleaseSpec.identity] at this
        exact this.2.1.symm
      simp only [deltaScan, hf, ih]
      simp [satisfiedNames, List.filter_cons, h, hn]

/-- The second loop prunes every delta release by the recorded names, in order. -/
theorem deltaPrune_eq (ex delta : List ReleaseSpec) :
    deltaPrune ex delta =
      .ok (delta.map (fun r =>
        (ex.map (fun e => e.ChartName)).foldl (fun acc n => prunedRelease n acc) r)) := by
  induction ex generalizing delta with
  | nil => simp [deltaPrune, pure, Except.pure]
  | cons e es ih =>
    simp [deltaPrune, RemoveChartFromDependencies_eq, bind, Except.bind, ih, List.map_map,
      Function.comp_def]

theorem GetReleasesDelta_eq (from_ to_ : List ReleaseSpec) :
    GetReleasesDelta from_ to_ =
      .ok ((unmatched from_ to_).map (fun r =>
        (satisfiedNames from_ to_).foldl (fun acc n => prunedRelease n acc) r)) := by
  have h1 := deltaScan_fst to_ from_ [] []
  have h2 := deltaScan_snd_names to_ from_ [] []
  simp only [List.nil_append, List.map_nil] at h1 h2
  simp only [GetReleasesDelta, deltaPrune_eq, h1, h2]

theorem foldl_pruned_identity (names : List String) (r : ReleaseSpec) :
    (names.foldl (fun acc n => prunedRelease n acc) r).identity = r.identity := by
  induction names generalizing r with
  | nil => rfl
  | cons n ns ih => simp only [List.foldl_cons]; rw [ih]; rfl

theorem unmatched_iff (from_ to_ : List ReleaseSpec) (f : ReleaseSpec) :
    f ∈ unmatched from_ to_ ↔ f ∈ from_ ∧ ∀ t ∈ to_, f.Equals t = false := by
  simp [unmatched]
theorem delta_identities (from_ to_ : List ReleaseSpec) :
    ((unmatched from_ to_).map (fun r =>
      (satisfiedNames from_ to_).foldl (fun acc n => prunedRelease n acc) r)).map
        ReleaseSpec.identity = (unmatched from_ to_).map ReleaseSpec.identity := by
  rw [List.map_map]
  apply List.map_congr_left
  intro r _
  exact foldl_pruned_identity _ r

/-- C5: `GetReleasesDelta` returns; every release of the delta is `Equals` to a
release of `from`, the identity keys of the delta are a subsequence of those of
`from`, and no release of the delta is `Equals` to a release of `to`. -/
theorem GetReleasesDelta_subset (from_ to_ : List ReleaseSpec) :
    ∃ delta, GetReleasesDelta from_ to_ = .ok delta ∧
      (∀ d ∈ delta, ∃ f ∈ from_, d.Equals f = true) ∧
      (delta.map ReleaseSpec.identity).Sublist (from_.map ReleaseSpec.identity) ∧
      (∀ d ∈ delta, ∀ t ∈ to_, d.Equals t = false) := by
  refine ⟨_, GetReleasesDelta_eq from_ to_, ?_, ?_, ?_⟩
  · intro d hd
    obtain ⟨f, hf, rfl⟩ := List.mem_map.1 hd
    refine ⟨f, ((unmatched_iff _ _ _).1 hf).1, ?_⟩
    exact (equals_iff_identity _ _).2 (foldl_pruned_identity _ f)
  · rw [delta_identities]
    exact (List.filter_sublist _).map _
  · intro d hd t ht
    obtain ⟨f, hf, rfl⟩ := List.mem_map.1 hd
    have h1 := ((unmatched_iff _ _ _).1 hf).2 t ht
    cases h2 : ReleaseSpec.Equals
        ((satisfiedNames from_ to_).foldl (fun acc n => prunedRelease n acc) f) t with
    | false => rfl
    | true =>
      have h3 := (equals_iff_identity _ _).1 h2
      rw [foldl_pruned_identity] at h3
      rw [(equals_iff_identity _ _).2 h3] at h1
      cases h1

theorem countP_equals_of_nodup (l : List ReleaseSpec) (f : ReleaseSpec)
    (hnd : (l.map ReleaseSpec.identity).Nodup) (hf : f ∈ l) :
    l.countP (fun d => d.Equals f) = 1 := by
  induction l with
  | nil => simp at hf
  | cons a as ih =>
    rw [List.map_cons, List.nodup_cons] at hnd
    rcases List.mem_cons.1 hf with rfl | hmem
    · have h0 : as.countP (fun d => d.Equals f) = 0 := by
        rw [List.countP_eq_zero]
        intro d hd h
        exact hnd.1 ((equals_iff_identity _ _).1 h ▸ List.mem_map_of_mem _ hd)
      have hself : f.Equals f = true := (equals_iff_identity _ _).2 rfl
      rw [List.countP_cons_of_pos (fun d => d.Equals f) as hself, h0]
    · have hne : ¬ a.Equals f = true := by
        intro h
        exact hnd.1 ((equals_iff_identity _ _).1 h ▸ List.mem_map_of_mem _ hmem)
      rw [List.countP_cons_of_neg (fun d => d.Equals f) as hne]
      exact ih hnd.2 hmem

/-- C6 as stated fails: with the same release listed twice in `from` and an empty
`to`, the delta holds two releases equal to it under identity, not one. -/
theorem GetReleasesDelta_keeps_duplicates :
    GetReleasesDelta twiceFrom [] = .ok [rel "db" [], rel "db" []] ∧
    rel "db" [] ∈ twiceFrom ∧
    (∀ t ∈ ([] : List ReleaseSpec), (rel "db" []).Equals t = false) ∧
    List.countP (fun d => d.Equals (rel "db" [])) [rel "db" [], rel "db" []] = 2 := by
  refine ⟨rfl, by simp [twiceFrom], by simp, by decide⟩

/-- C6 amended: every release of `from` that has no `Equals` release in `to` has as
many identity-equal releases in the delta as it has in `from`, at least one; it
has exactly one when the identity keys of `from` are pairwise distinct. -/
theorem GetReleasesDelta_complete (from_ to_ : List ReleaseSpec) (f : ReleaseSpec)
    (hf : f ∈ from_) (hno : ∀ t ∈ to_, f.Equals t = false) :
    ∃ delta, GetReleasesDelta from_ to_ = .ok delta ∧
      delta.countP (fun d => d.Equals f) = from_.countP (fun d => d.Equals f) ∧
      0 < delta.countP (fun d => d.Equals f) ∧
      ((from_.map ReleaseSpec.identity).Nodup → delta.countP (fun d => d.Equals f) = 1) := by
  have hcount : ((unmatched from_ to_).map (fun r =>
      (satisfiedNames from_ to_).foldl (fun acc n => prunedRelease n acc) r)).countP
        (fun d => d.Equals f) = from_.countP (fun d => d.Equals f) := by
    rw [List.countP_map, unmatched, List.countP_filter]
    apply List.countP_congr
    intro r _
    have hid := foldl_pruned_identity (satisfiedNames from_ to_) r
    simp only [Function.comp_apply, Bool.and_eq_true, Bool.not_eq_true']
    constructor
    · intro h
      exact (equals_iff_identity _ _).2 (hid ▸ (equals_iff_identity _ _).1 h.1)
    · intro h
      have hrf := (equals_iff_identity _ _).1 h
      refine ⟨(equals_iff_identity _ _).2 (hid.trans hrf), ?_⟩
      rw [List.any_eq_false]
      intro t ht
      have h1 := hno t ht
      intro h2
      have h3 := (equals_iff_identity _ _).1 h2
      rw [(equals_iff_identity _ _).2 (hrf.symm.trans h3)] at h1
      cases h1
  have hpos : 0 < from_.countP (fun d => d.Equals f) :=
    List.countP_pos_iff.2 ⟨f, hf, (equals_iff_identity _ _).2 rfl⟩
  refine ⟨_, GetReleasesDelta_eq from_ to_, hcount, hcount ▸ hpos, ?_⟩
  intro hnd
  rw [hcount]
  exact countP_equals_of_nodup from_ f hnd hf

theorem GetReleasesDelta_complete_witness :
    rel "api" ["db"] ∈ [rel "db" [], rel "api" ["db"]] ∧
    (∀ t ∈ [rel "db" []], (rel "api" ["db"]).Equals t = false) ∧
    ∃ delta, GetReleasesDelta [rel "db" [], rel "api" ["db"]] [rel "db" []] = .ok delta ∧
      delta.countP (fun d => d.Equals (rel "api" ["db"])) =
        [rel "db" [], rel "api" ["db"]].countP (fun d => d.Equals (rel "api" ["db"])) ∧
      0 < delta.countP (fun d => d.Equals (rel "api" ["db"])) ∧
      (([rel "db" [], rel "api" ["db"]].map ReleaseSpec.identity).Nodup →
        delta.countP (fun d => d.Equals (rel "api" ["db"])) = 1) :=
  ⟨by decide, by decide,
    GetReleasesDelta_complete [rel "db" [], rel "api" ["db"]] [rel "db" []] (rel "api" ["db"])
      (by decide) (by decide)⟩
theorem prunedDeps_nodup (name : String) (deps : List String) (h : deps.Nodup) :
    (prunedDeps name deps).Nodup :=
  (prunedDeps_perm_erase name deps).nodup_iff.2 (h.erase name)

theorem foldl_prunedDeps_nodup (names deps : List String) (h : deps.Nodup) :
    (names.foldl (fun acc n => prunedDeps n acc) deps).Nodup := by
  induction names generalizing deps with
  | nil => exact h
  | cons n ns ih => exact ih _ (prunedDeps_nodup n deps h)

theorem RemoveChartFromCharts_last (pre : List ReleaseSpec) (x : ReleaseSpec) :
    RemoveChartFromCharts (pre ++ [x]) (pre.length : Int) = .ok pre := by
  have hne : pre ++ [x] ≠ [] := by simp
  have hpos : 0 < (pre ++ [x]).length := List.length_pos.2 hne
  simp only [RemoveChartFromCharts]
  rw [getAt_last _ x hne]
  simp only [bind, Except.bind]
  rw [setAt_nat _ _ _ (by simp)]
  simp only [List.length_set]
  rw [pred_cast _ hpos, sliceTo_nat _ _ (by simp)]
  simp

theorem RemoveChartFromCharts_inner (pre mid : List ReleaseSpec) (x z : ReleaseSpec) :
    RemoveChartFromCharts (pre ++ x :: (mid ++ [z])) (pre.length : Int) =
      .ok (pre ++ z :: mid) := by
  have hne : pre ++ x :: (mid ++ [z]) ≠ [] := by simp
  have hpos : 0 < (pre ++ x :: (mid ++ [z])).length := List.length_pos.2 hne
  have hlast : (pre ++ x :: (mid ++ [z])).getLast? = some z := by
    rw [show pre ++ x :: (mid ++ [z]) = (pre ++ x :: mid) ++ [z] by simp]
    exact List.getLast?_concat _
  simp only [RemoveChartFromCharts]
  rw [getAt_last _ x hne, hlast]
  simp only [bind, Except.bind, Option.getD_some]
  rw [setAt_nat _ _ _ (by simp)]
  simp only [List.length_set]
  rw [pred_cast _ hpos, sliceTo_nat _ _ (by simp)]
  rw [List.set_append_right _ _ (le_refl _)]
  simp only [Nat.sub_self, List.set_cons_zero]
  have hlen : (pre ++ x :: (mid ++ [z])).length - 1 = (pre ++ z :: mid).length := by simp
  rw [hlen, show pre ++ z :: (mid ++ [z]) = (pre ++ z :: mid) ++ [z] by simp, List.take_left]

/-- Swap-with-last removal at a position inside the list: the result keeps the
entries before the position and is a rearrangement of the other survivors. -/
theorem RemoveChartFromCharts_split (pre post : List ReleaseSpec) (x : ReleaseSpec) :
    ∃ out, RemoveChartFromCharts (pre ++ x :: post) (pre.length : Int) = .ok out ∧
      out.Perm (pre ++ post) ∧ ∃ rest, out = pre ++ rest := by
  rcases List.eq_nil_or_concat post with hp | ⟨mid, z, hp⟩
  · subst hp
    exact ⟨pre, RemoveChartFromCharts_last pre x, by simp, [], by simp⟩
  · rw [List.concat_eq_append] at hp
    subst hp
    refine ⟨pre ++ z :: mid, RemoveChartFromCharts_inner pre mid x z, ?_, z :: mid, rfl⟩
    have h1 : (z :: mid).Perm (mid ++ [z]) := by
      simpa using (List.perm_append_comm : ([z] ++ mid).Perm (mid ++ [z]))
    exact List.Perm.append_left pre h1

theorem prunedRelease_ready (name : String) (r : ReleaseSpec) (h : r.Dependencies = []) :
    prunedRelease name r = r := by
  cases r with
  | mk a b c d =>
    simp only at h
    subst h
    rfl

theorem split_of_getElem_some (M : List ReleaseSpec) (k : Nat) (r : ReleaseSpec)
    (h : M[k]? = some r) : ∃ pre post, M = pre ++ r :: post ∧ pre.length = k := by
  obtain ⟨hk, hr⟩ := List.getElem?_eq_some.1 h
  refine ⟨M.take k, M.drop (k + 1), ?_, by simp; omega⟩
  rw [← hr]
  simp

theorem processReady_steps (idxs : List Nat) (M : List ReleaseSpec) (h : Pending idxs M) :
    ∃ M', processReady idxs M = .ok M' ∧ Relation.ReflTransGen ReadyStep M M' ∧
      M'.length + idxs.length = M.length := by
  induction idxs generalizing M with
  | nil => exact ⟨M, rfl, Relation.ReflTransGen.refl, by simp⟩
  | cons k rest ih =>
    obtain ⟨hpair, hready⟩ := h
    obtain ⟨r, hr, hdeps⟩ := hready k (by simp)
    obtain ⟨pre, post, hM, hlen⟩ := split_of_getElem_some M k r hr
    have hmap : M.map (prunedRelease r.ChartName) =
        pre.map (prunedRelease r.ChartName) ++ r :: post.map (prunedRelease r.ChartName) := by
      rw [hM, List.map_append, List.map_cons, prunedRelease_ready _ r hdeps]
    have hk : ((pre.map (prunedRelease r.ChartName)).length : Int) = (k : Int) := by
      simp [hlen]
    obtain ⟨M2, hM2, hperm, rest2, hrest2⟩ :=
      RemoveChartFromCharts_split (pre.map (prunedRelease r.ChartName))
        (post.map (prunedRelease r.ChartName)) r
    rw [hk] at hM2
    have hstep : ReadyStep M M2 := by
      refine ⟨pre, r, post, hM, hdeps, ?_⟩
      rw [List.map_append]
      exact hperm
    have hpend : Pending rest M2 := by
      refine ⟨(List.pairwise_cons.1 hpair).2, ?_⟩
      intro j hj
      have hjk : j < k := (List.pairwise_cons.1 hpair).1 j hj
      obtain ⟨rj, hrj, hdj⟩ := hready j (by simp [hj])
      refine ⟨prunedRelease r.ChartName rj, ?_, ?_⟩
      · rw [hrest2, List.getElem?_append_left (by simp; omega)]
        rw [hM, List.getElem?_append_left (by omega)] at hrj
        simp [hrj]
      · simp [prunedRelease, hdj, prunedDeps, Contains]
    obtain ⟨M', hM', hsteps, hl⟩ := ih M2 hpend
    refine ⟨M', ?_, Relation.ReflTransGen.head hstep hsteps, ?_⟩
    · simp only [processReady]
      rw [getAt_nat _ _ _ hr]
      simp only [bind, Except.bind]
      rw [RemoveChartFromDependencies_eq, hmap]
      simp only [hM2, hM']
    · have h1 := hperm.length_eq
      simp only [List.length_append, List.length_map] at h1
      rw [hM]
      simp only [List.length_append, List.length_cons]
      omega
/-! ## The cycle detector: the scan and the outer loop -/

theorem scanReady_ge (M : List ReleaseSpec) (i k : Nat) (h : k ∈ scanReady M i) : i ≤ k := by
  induction M generalizing i with
  | nil => simp [scanReady] at h
  | cons r rs ih =>
    by_cases hr : r.Dependencies.length ≠ 0
    · rw [scanReady, if_pos hr] at h
      have := ih _ h
      omega
    · rw [scanReady, if_neg hr, List.mem_cons] at h
      rcases h with h | h
      · omega
      · have := ih _ h
        omega

theorem scanReady_sorted (M : List ReleaseSpec) (i : Nat) :
    (scanReady M i).Pairwise (fun a b => a < b) := by
  induction M generalizing i with
  | nil => simp [scanReady]
  | cons r rs ih =>
    by_cases hr : r.Dependencies.length ≠ 0
    · rw [scanReady, if_pos hr]
      exact ih _
    · rw [scanReady, if_neg hr, List.pairwise_cons]
      refine ⟨?_, ih _⟩
      intro k hk
      have := scanReady_ge rs (i + 1) k hk
      omega

theorem scanReady_points (M : List ReleaseSpec) (i k : Nat) (h : k ∈ scanReady M i) :
    ∃ r, M[k - i]? = some r ∧ r.Dependencies = [] := by
  induction M generalizing i with
  | nil => simp [scanReady] at h
  | cons r rs ih =>
    by_cases hr : r.Dependencies.length ≠ 0
    · rw [scanReady, if_pos hr] at h
      obtain ⟨r', h1, h2⟩ := ih _ h
      have hge := scanReady_ge rs (i + 1) k h
      refine ⟨r', ?_, h2⟩
      rw [show k - i = (k - (i + 1)) + 1 by omega]
      simpa using h1
    · rw [scanReady, if_neg hr, List.mem_cons] at h
      rcases h with h | h
      · subst h
        refine ⟨r, by simp, ?_⟩
        exact List.length_eq_zero.1 (by omega)
      · obtain ⟨r', h1, h2⟩ := ih _ h
        have hge := scanReady_ge rs (i + 1) k h
        refine ⟨r', ?_, h2⟩
        rw [show k - i = (k - (i + 1)) + 1 by omega]
        simpa using h1

theorem scanReady_eq_nil (M : List ReleaseSpec) (i : Nat) :
    scanReady M i = [] ↔ ∀ r ∈ M, r.Dependencies ≠ [] := by
  induction M generalizing i with
  | nil => simp [scanReady]
  | cons r rs ih =>
    by_cases hr : r.Dependencies.length ≠ 0
    · have hne : r.Dependencies ≠ [] := fun h => hr (by simp [h])
      rw [scanReady, if_pos hr, ih]
      simp only [List.mem_cons, forall_eq_or_imp]
      exact ⟨fun h => ⟨hne, h⟩, fun h => h.2⟩
    · have he : r.Dependencies = [] := List.length_eq_zero.1 (by omega)
      rw [scanReady, if_neg hr]
      simp only [List.mem_cons, forall_eq_or_imp]
      constructor
      · intro h; cases h
      · intro h; exact absurd he h.1

theorem scanReady_pending (M : List ReleaseSpec) : Pending (scanReady M 0).reverse M := by
  refine ⟨?_, ?_⟩
  · rw [List.pairwise_reverse]
    exact scanReady_sorted M 0
  · intro k hk
    have := scanReady_points M 0 k (List.mem_reverse.1 hk)
    simpa using this

/-- The outer loop returns within `len(releases) + 1` passes; what it returns is
whether the collection reached by the visits is non-empty, and that collection
is empty or has no release without dependencies. -/
theorem checkLoop_spec (n : Nat) : ∀ (M : List ReleaseSpec) (fuel : Nat) (s e : Int),
    M.length ≤ n → n < fuel → s ≠ e ∧ e ≠ 0 →
    ∃ M', Relation.ReflTransGen ReadyStep M M' ∧
      (M' = [] ∨ ∀ r ∈ M', r.Dependencies ≠ []) ∧
      checkLoop fuel M s e = .ok (decide (M' ≠ [])) := by
  induction n with
  | zero =>
    intro M fuel s e hlen hfuel hcond
    have hM : M = [] := List.length_eq_zero.1 (by omega)
    subst hM
    obtain ⟨f, rfl⟩ : ∃ f, fuel = f + 1 := ⟨fuel - 1, by omega⟩
    refine ⟨[], Relation.ReflTransGen.refl, Or.inl rfl, ?_⟩
    rw [checkLoop, if_pos hcond]
    simp only [scanReady, List.reverse_nil, processReady, bind, Except.bind, pure, Except.pure,
      List.length_nil]
    rw [checkLoop.eq_def]
    simp [pure, Except.pure]
  | succ n ih =>
    intro M fuel s e hlen hfuel hcond
    obtain ⟨f, rfl⟩ : ∃ f, fuel = f + 1 := ⟨fuel - 1, by omega⟩
    obtain ⟨M1, hM1, hsteps, hl⟩ := processReady_steps _ M (scanReady_pending M)
    rw [checkLoop, if_pos hcond]
    simp only [hM1, bind, Except.bind]
    by_cases hidx : scanReady M 0 = []
    · have hsame : M1 = M := by
        rw [hidx] at hM1
        simp only [List.reverse_nil, processReady, pure, Except.pure] at hM1
        exact (Except.ok.inj hM1).symm
      subst hsame
      refine ⟨M1, Relation.ReflTransGen.refl, Or.inr ((scanReady_eq_nil M1 0).1 hidx), ?_⟩
      rw [checkLoop.eq_def]
      by_cases hnil : M1 = []
      · simp [hnil, pure, Except.pure]
      · have : (M1.length : Int) ≠ 0 := by
          have := List.length_pos.2 hnil
          omega
        simp [hnil, this, pure, Except.pure]
    · have hpos : 0 < (scanReady M 0).reverse.length := by
        rw [List.length_reverse]
        exact List.length_pos.2 hidx
      by_cases hnil : M1 = []
      · subst hnil
        refine ⟨[], hsteps, Or.inl rfl, ?_⟩
        rw [checkLoop.eq_def]
        simp [pure, Except.pure]
      · have hlen1 : 0 < M1.length := List.length_pos.2 hnil
        have hcond1 : (M.length : Int) ≠ (M1.length : Int) ∧ (M1.length : Int) ≠ 0 := by
          constructor <;> omega
        obtain ⟨M', hs', hfin, hres⟩ := ih M1 f _ _ (by omega) (by omega) hcond1
        exact ⟨M', hsteps.trans hs', hfin, hres⟩

theorem CheckCircularDependencies_spec (M : List ReleaseSpec) :
    ∃ M', Relation.ReflTransGen ReadyStep M M' ∧
      (M' = [] ∨ ∀ r ∈ M', r.Dependencies ≠ []) ∧
      CheckCircularDependencies M = .ok (decide (M' ≠ [])) := by
  have hcond : ((M.length : Int) ≠ -1) ∧ ((-1 : Int) ≠ 0) := by
    constructor <;> omega
  exact checkLoop_spec M.length M (M.length + 1) _ _ (le_refl _) (by omega) hcond
/-! ## The cycle detector: collections it can never empty -/

theorem mem_prunedDeps_of_ne (name d : String) (deps : List String) (hd : d ∈ deps)
    (hne : d ≠ name) : d ∈ prunedDeps name deps := by
  rw [(prunedDeps_perm_erase name deps).mem_iff]
  exact (List.mem_erase_of_ne hne).2 hd

theorem stuck_step (P : String → Prop) (M M' : List ReleaseSpec) (h : Stuck P M)
    (hs : ReadyStep M M') : Stuck P M' := by
  obtain ⟨pre, x, post, hM, hx, hperm⟩ := hs
  obtain ⟨h1, r0, hr0, d0, hd0, hP0⟩ := h
  have hxM : x ∈ M := by rw [hM]; simp
  have hnP : ¬ P x.ChartName := by
    intro hp
    obtain ⟨d, hd, _⟩ := h1 x hxM hp
    rw [hx] at hd
    cases hd
  have hsub : ∀ r ∈ pre ++ post, r ∈ M := by
    intro r hr
    rw [hM]
    rcases List.mem_append.1 hr with h | h
    · simp [h]
    · simp [h]
  constructor
  · intro r' hr' hPr'
    obtain ⟨r, hr, rfl⟩ := List.mem_map.1 (hperm.mem_iff.1 hr')
    obtain ⟨d, hd, hPd⟩ := h1 r (hsub r hr) hPr'
    have hne : d ≠ x.ChartName := fun he => hnP (he ▸ hPd)
    exact ⟨d, mem_prunedDeps_of_ne _ _ _ hd hne, hPd⟩
  · have hr0x : r0 ≠ x := by
      intro he
      rw [he, hx] at hd0
      cases hd0
    have hr0' : r0 ∈ pre ++ post := by
      rw [hM] at hr0
      rcases List.mem_append.1 hr0 with h | h
      · exact List.mem_append.2 (Or.inl h)
      · rcases List.mem_cons.1 h with h | h
        · exact absurd h hr0x
        · exact List.mem_append.2 (Or.inr h)
    have hne : d0 ≠ x.ChartName := fun he => hnP (he ▸ hP0)
    exact ⟨prunedRelease x.ChartName r0, hperm.mem_iff.2 (List.mem_map_of_mem _ hr0'), d0,
      mem_prunedDeps_of_ne _ _ _ hd0 hne, hP0⟩

theorem stuck_steps (P : String → Prop) (M M' : List ReleaseSpec) (h : Stuck P M)
    (hs : Relation.ReflTransGen ReadyStep M M') : Stuck P M' := by
  induction hs with
  | refl => exact h
  | tail _ hstep ih => exact stuck_step P _ _ ih hstep

/-- A collection with a stuck set of names is reported as circular. -/
theorem check_true_of_stuck (P : String → Prop) (M : List ReleaseSpec) (h : Stuck P M) :
    CheckCircularDependencies M = .ok true := by
  obtain ⟨M', hsteps, _, hres⟩ := CheckCircularDependencies_spec M
  obtain ⟨_, r, hr, _⟩ := stuck_steps P M M' h hsteps
  have hne : M' ≠ [] := List.ne_nil_of_mem hr
  rw [hres]
  simp [hne]

theorem release_eq_of_name (M : List ReleaseSpec)
    (hnd : (M.map (fun r => r.ChartName)).Nodup) (r s : ReleaseSpec) (hr : r ∈ M) (hs : s ∈ M)
    (h : r.ChartName = s.ChartName) : r = s :=
  List.inj_on_of_nodup_map hnd hr hs h

/-- C3: for a list of `n ≥ 2` releases with pairwise distinct chart names in which
the `Dependencies` of each release is exactly the chart name of the next release,
the last wrapping round to the first, `CheckCircularDependencies` returns true;
so it does on Scenario B. -/
theorem CheckCircularDependencies_ring_true (releases : List ReleaseSpec)
    (hlen : 2 ≤ releases.length)
    (_hnd : (releases.map (fun r => r.ChartName)).Nodup)
    (hring : ∀ (i : Nat) (r : ReleaseSpec), releases[i]? = some r →
      ∃ next, releases[(i + 1) % releases.length]? = some next ∧
        r.Dependencies = [next.ChartName]) :
    CheckCircularDependencies releases = .ok true ∧
    CheckCircularDependencies scenarioB = .ok true := by
  refine ⟨check_true_of_stuck (fun _ => True) releases ?_, rfl⟩
  have hdep : ∀ r ∈ releases, ∃ d, d ∈ r.Dependencies := by
    intro r hr
    obtain ⟨i, hi⟩ := List.mem_iff_getElem?.1 hr
    obtain ⟨next, _, hd⟩ := hring i r hi
    exact ⟨next.ChartName, by simp [hd]⟩
  have hne : releases ≠ [] := by
    intro h
    rw [h] at hlen
    simp at hlen
  obtain ⟨r0, hr0⟩ := List.exists_mem_of_ne_nil releases hne
  constructor
  · intro r hr _
    obtain ⟨d, hd⟩ := hdep r hr
    exact ⟨d, hd, trivial⟩
  · obtain ⟨d, hd⟩ := hdep r0 hr0
    exact ⟨r0, hr0, d, hd, trivial⟩

theorem scenarioB_ring (i : Nat) (r : ReleaseSpec) (h : scenarioB[i]? = some r) :
    ∃ next, scenarioB[(i + 1) % scenarioB.length]? = some next ∧
      r.Dependencies = [next.ChartName] := by
  match i with
  | 0 =>
    simp [scenarioB] at h
    subst h
    exact ⟨rel "B" ["A"], rfl, rfl⟩
  | 1 =>
    simp [scenarioB] at h
    subst h
    exact ⟨rel "A" ["B"], rfl, rfl⟩
  | k + 2 => simp [scenarioB] at h

theorem CheckCircularDependencies_ring_true_witness :
    2 ≤ scenarioB.length ∧
    (scenarioB.map (fun r => r.ChartName)).Nodup ∧
    (∀ (i : Nat) (r : ReleaseSpec), scenarioB[i]? = some r →
      ∃ next, scenarioB[(i + 1) % scenarioB.length]? = some next ∧
        r.Dependencies = [next.ChartName]) ∧
    (CheckCircularDependencies scenarioB = .ok true ∧
      CheckCircularDependencies scenarioB = .ok true) :=
  ⟨by decide, by decide, scenarioB_ring,
    CheckCircularDependencies_ring_true scenarioB (by decide) (by decide) scenarioB_ring⟩

/-- C4: for a release list in which some release has a dependency entry that is
not the chart name of any release of the list, `CheckCircularDependencies`
returns true. -/
theorem CheckCircularDependencies_dangling_true (releases : List ReleaseSpec)
    (r : ReleaseSpec) (d : String) (hr : r ∈ releases) (hd : d ∈ r.Dependencies)
    (hdangling : ∀ s ∈ releases, s.ChartName ≠ d) :
    CheckCircularDependencies releases = .ok true := by
  refine check_true_of_stuck (fun a => ∀ s ∈ releases, s.ChartName ≠ a) releases ⟨?_, ?_⟩
  · intro s hs hP
    exact absurd rfl (hP s hs)
  · exact ⟨r, hr, d, hd, hdangling⟩

theorem CheckCircularDependencies_dangling_true_witness :
    rel "B" ["Z"] ∈ danglingList ∧ "Z" ∈ (rel "B" ["Z"]).Dependencies ∧
    (∀ s ∈ danglingList, s.ChartName ≠ "Z") ∧
    CheckCircularDependencies danglingList = .ok true :=
  ⟨by decide, by decide, by decide,
    CheckCircularDependencies_dangling_true danglingList (rel "B" ["Z"]) "Z"
      (by decide) (by decide) (by decide)⟩
/-! ## Equality of releases -/

/-- C15: `a.Equals(b)` is true exactly when `ReleaseName`, `ChartName` and
`ChartVersion` are equal; `Dependencies` never affect the result, and `Equals` is
reflexive, symmetric and transitive. -/
theorem Equals_is_identity_equivalence :
    (∀ a b : ReleaseSpec, a.Equals b = true ↔
      (a.ReleaseName = b.ReleaseName ∧ a.ChartName = b.ChartName ∧
        a.ChartVersion = b.ChartVersion)) ∧
    (∀ (a b : ReleaseSpec) (da db : List String),
      ReleaseSpec.Equals { a with Dependencies := da } { b with Dependencies := db } =
        a.Equals b) ∧
    (∀ a : ReleaseSpec, a.Equals a = true) ∧
    (∀ a b : ReleaseSpec, a.Equals b = true → b.Equals a = true) ∧
    (∀ a b c : ReleaseSpec, a.Equals b = true → b.Equals c = true → a.Equals c = true) := by
  refine ⟨?_, ?_, ?_, ?_, ?_⟩
  · intro a b
    simp [ReleaseSpec.Equals]
  · intro a b da db
    rfl
  · intro a
    simp [ReleaseSpec.Equals]
  · intro a b h
    rw [equals_iff_identity] at h ⊢
    exact h.symm
  · intro a b c h1 h2
    rw [equals_iff_identity] at h1 h2 ⊢
    exact h1.trans h2

/-! ## The delta of a state with itself -/

theorem unmatched_self (xs : List ReleaseSpec) : unmatched xs xs = [] := by
  rw [unmatched, List.filter_eq_nil_iff]
  intro f hf
  have : xs.any (fun t => f.Equals t) = true :=
    List.any_eq_true.2 ⟨f, hf, (equals_iff_identity f f).2 rfl⟩
  simp [this]

/-- C20: for every release list `xs`, `GetReleasesDelta(xs, xs)` is empty. -/
theorem GetReleasesDelta_self (xs : List ReleaseSpec) : GetReleasesDelta xs xs = .ok [] := by
  rw [GetReleasesDelta_eq, unmatched_self]
  rfl

/-! ## The cycle detector: a dependency listed twice -/

theorem pruneDependantWith_eq (contains : List String → String → Bool)
    (hC : ∀ l n, contains l n = true ↔ n ∈ l) (r : ReleaseSpec) (name : String) :
    pruneDependantWith contains r name = pruneDependant r name := by
  have h : contains r.Dependencies name = Contains r.Dependencies name := by
    rw [Bool.eq_iff_iff, hC, contains_iff]
  simp only [pruneDependantWith, pruneDependant, h]

theorem removeChartLoopWith_eq (contains : List String → String → Bool)
    (hC : ∀ l n, contains l n = true ↔ n ∈ l) (name : String)
    (charts out : List ReleaseSpec) :
    removeChartLoopWith contains name charts out = removeChartLoop name charts out := by
  induction charts generalizing out with
  | nil => rfl
  | cons c cs ih =>
    simp only [removeChartLoopWith, removeChartLoop, pruneDependantWith_eq contains hC, ih]

theorem findIndexLoop_bounds (name : String) (deps : List String) (h : name ∈ deps) :
    findIndexLoop name deps 0 (-1) ≠ -1 ∧ 0 ≤ findIndexLoop name deps 0 (-1) ∧
      findIndexLoop name deps 0 (-1) < (deps.length : Int) ∧ 0 ≤ (deps.length : Int) - 1 := by
  obtain ⟨pre, post, hd, hn⟩ := exists_last_split name deps h
  have hi : findIndexLoop name deps 0 (-1) = (pre.length : Int) := by
    rw [hd, findIndexLoop_split name pre post 0 (-1) hn]; simp
  have hlen : deps.length = pre.length + (post.length + 1) := by rw [hd]; simp
  rw [hi, hlen]
  refine ⟨by omega, by omega, ?_, ?_⟩
  · push_cast; omega
  · push_cast; omega

/-- C17: when the helper `Contains(list, name)` is true exactly when `name` occurs
in `list`, `RemoveChartFromDependencies` returns for every release list and chart
name: the fatal branch is not taken and no index is out of range; for every
dependant that passes the `Contains` test the found index is not `-1` and lies
within the dependency list, as does `len - 1`.  The helper modelled in this
development is such a `Contains`. -/
theorem RemoveChartFromDependencies_never_faults
    (contains : List String → String → Bool)
    (hC : ∀ l n, contains l n = true ↔ n ∈ l)
    (charts : List ReleaseSpec) (name : String) :
    (∃ out, RemoveChartFromDependenciesWith contains charts name = .ok out) ∧
    (∀ r ∈ charts, contains r.Dependencies name = true →
      findIndexLoop name r.Dependencies 0 (-1) ≠ -1 ∧
      0 ≤ findIndexLoop name r.Dependencies 0 (-1) ∧
      findIndexLoop name r.Dependencies 0 (-1) < (r.Dependencies.length : Int) ∧
      0 ≤ (r.Dependencies.length : Int) - 1) ∧
    RemoveChartFromDependenciesWith Contains charts name =
      RemoveChartFromDependencies charts name := by
  refine ⟨⟨charts.map (prunedRelease name), ?_⟩, ?_, ?_⟩
  · rw [RemoveChartFromDependenciesWith, removeChartLoopWith_eq contains hC]
    exact RemoveChartFromDependencies_eq charts name
  · intro r _ hr
    exact findIndexLoop_bounds name r.Dependencies ((hC _ _).1 hr)
  · rw [RemoveChartFromDependenciesWith, removeChartLoopWith_eq Contains contains_iff]
    rfl

theorem RemoveChartFromDependencies_never_faults_witness :
    (∀ l n, Contains l n = true ↔ n ∈ l) ∧
    ((∃ out, RemoveChartFromDependenciesWith Contains scenarioC "A" = .ok out) ∧
    (∀ r ∈ scenarioC, Contains r.Dependencies "A" = true →
      findIndexLoop "A" r.Dependencies 0 (-1) ≠ -1 ∧
      0 ≤ findIndexLoop "A" r.Dependencies 0 (-1) ∧
      findIndexLoop "A" r.Dependencies 0 (-1) < (r.Dependencies.length : Int) ∧
      0 ≤ (r.Dependencies.length : Int) - 1) ∧
    RemoveChartFromDependenciesWith Contains scenarioC "A" =
      RemoveChartFromDependencies scenarioC "A") :=
  ⟨contains_iff, RemoveChartFromDependencies_never_faults Contains contains_iff scenarioC "A"⟩

/-! ## The cycle detector terminates -/

theorem checkLoop_stop (fuel : Nat) (M : List ReleaseSpec) (s e : Int)
    (h : ¬ (s ≠ e ∧ e ≠ 0)) :
    checkLoop fuel M s e = .ok (decide (e ≠ 0)) := by
  rw [checkLoop.eq_def]
  dsimp only
  rw [if_neg h]
  by_cases he : e = 0
  · simp [he, pure, Except.pure]
  · simp [he, pure, Except.pure]

theorem checkLoop_pass (fuel : Nat) (M M1 : List ReleaseSpec) (s e : Int)
    (h : s ≠ e ∧ e ≠ 0) (hM1 : processReady (scanReady M 0).reverse M = .ok M1) :
    checkLoop (fuel + 1) M s e = checkLoop fuel M1 M.length M1.length := by
  rw [checkLoop, if_pos h]
  simp only [hM1, bind, Except.bind]

theorem checkLoop_more_fuel (fuel : Nat) : ∀ (M : List ReleaseSpec) (s e : Int) (b : Bool),
    checkLoop fuel M s e = .ok b → checkLoop (fuel + 1) M s e = .ok b := by
  induction fuel with
  | zero =>
    intro M s e b h
    by_cases hc : s ≠ e ∧ e ≠ 0
    · rw [checkLoop.eq_def] at h
      dsimp only at h
      rw [if_pos hc] at h
      cases h
    · rw [checkLoop_stop _ _ _ _ hc] at h
      rw [checkLoop_stop _ _ _ _ hc]
      exact h
  | succ f ih =>
    intro M s e b h
    by_cases hc : s ≠ e ∧ e ≠ 0
    · obtain ⟨M1, hM1, _, _⟩ := processReady_steps _ M (scanReady_pending M)
      rw [checkLoop_pass _ _ _ _ _ hc hM1] at h ⊢
      exact ih _ _ _ _ h
    · rw [checkLoop_stop _ _ _ _ hc] at h
      rw [checkLoop_stop _ _ _ _ hc]
      exact h

theorem checkLoop_fuel_le (fuel fuel2 : Nat) (hle : fuel ≤ fuel2) (M : List ReleaseSpec)
    (s e : Int) (b : Bool) (h : checkLoop fuel M s e = .ok b) :
    checkLoop fuel2 M s e = .ok b := by
  induction hle with
  | refl => exact h
  | step _ ih => exact checkLoop_more_fuel _ _ _ _ _ ih

/-- C16: `CheckCircularDependencies` returns on every release list; `n + 1` passes
settle a list of `n` releases, and further passes change nothing.  Every pass of
the outer loop returns a collection that is shorter, or is the collection it
started from, and then the loop ends without another pass. -/
theorem CheckCircularDependencies_terminates (releases : List ReleaseSpec) :
    (∃ b, CheckCircularDependencies releases = .ok b ∧
      ∀ fuel, releases.length + 1 ≤ fuel →
        checkLoop fuel releases releases.length (-1) = .ok b) ∧
    (∀ M : List ReleaseSpec, ∃ M1, processReady (scanReady M 0).reverse M = .ok M1 ∧
      (M1.length < M.length ∨
        (M1 = M ∧ checkLoop 0 M1 M.length M1.length = .ok (decide (M1 ≠ []))))) := by
  constructor
  · obtain ⟨M', _, _, hres⟩ := CheckCircularDependencies_spec releases
    refine ⟨decide (M' ≠ []), hres, ?_⟩
    intro fuel hfuel
    exact checkLoop_fuel_le _ _ hfuel _ _ _ _ hres
  · intro M
    obtain ⟨M1, hM1, _, hl⟩ := processReady_steps _ M (scanReady_pending M)
    refine ⟨M1, hM1, ?_⟩
    by_cases hidx : scanReady M 0 = []
    · right
      have hsame : M1 = M := by
        rw [hidx] at hM1
        simp only [List.reverse_nil, processReady, pure, Except.pure] at hM1
        exact (Except.ok.inj hM1).symm
      subst hsame
      refine ⟨rfl, ?_⟩
      rw [checkLoop_stop _ _ _ _ (by simp)]
      congr 1
      simp [List.length_eq_zero]
    · left
      have hpos : 0 < (scanReady M 0).reverse.length := by
        rw [List.length_reverse]
        exact List.length_pos.2 hidx
      omega
/-! ## The cycle detector: what one pass removes -/

theorem processReady_visit (k : Nat) (M : List ReleaseSpec) (r : ReleaseSpec)
    (hr : M[k]? = some r) (hdeps : r.Dependencies = []) :
    ∃ M2 pre post, M = pre ++ r :: post ∧ pre.length = k ∧
      (∀ rest, processReady (k :: rest) M = processReady rest M2) ∧
      M2.Perm ((pre ++ post).map (prunedRelease r.ChartName)) ∧
      (∀ (j : Nat) (s : ReleaseSpec), j < k → M[j]? = some s → s.Dependencies = [] →
        M2[j]? = some s) := by
  obtain ⟨pre, post, hM, hlen⟩ := split_of_getElem_some M k r hr
  have hmap : M.map (prunedRelease r.ChartName) =
      pre.map (prunedRelease r.ChartName) ++ r :: post.map (prunedRelease r.ChartName) := by
    rw [hM, List.map_append, List.map_cons, prunedRelease_ready _ r hdeps]
  have hk : ((pre.map (prunedRelease r.ChartName)).length : Int) = (k : Int) := by
    simp [hlen]
  obtain ⟨M2, hM2, hperm, rest2, hrest2⟩ :=
    RemoveChartFromCharts_split (pre.map (prunedRelease r.ChartName))
      (post.map (prunedRelease r.ChartName)) r
  rw [hk] at hM2
  refine ⟨M2, pre, post, hM, hlen, ?_, ?_, ?_⟩
  · intro rest
    simp only [processReady]
    rw [getAt_nat _ _ _ hr]
    simp only [bind, Except.bind]
    rw [RemoveChartFromDependencies_eq, hmap]
    simp only [hM2]
  · rw [List.map_append]
    exact hperm
  · intro j s hjk hs hsd
    rw [hrest2, List.getElem?_append_left (by simp; omega)]
    rw [hM, List.getElem?_append_left (by omega)] at hs
    simp [hs, prunedRelease_ready _ s hsd]

theorem map_identity_pruned (name : String) (L : List ReleaseSpec) :
    (L.map (prunedRelease name)).map ReleaseSpec.identity = L.map ReleaseSpec.identity := by
  rw [List.map_map]
  rfl

theorem processReady_prefix (done : List Nat) : ∀ (todo : List Nat) (M : List ReleaseSpec),
    Pending (done ++ todo) M →
    ∃ Mk, processReady done M = .ok Mk ∧
      (∀ k ∈ todo, ∀ r, M[k]? = some r → r.Dependencies = [] → Mk[k]? = some r) ∧
      (Mk.map ReleaseSpec.identity ++
        (done.filterMap (fun k => M[k]?)).map ReleaseSpec.identity).Perm
          (M.map ReleaseSpec.identity) := by
  induction done with
  | nil =>
    intro todo M _
    exact ⟨M, rfl, fun _ _ _ h _ => h, by simp⟩
  | cons k rest ih =>
    intro todo M h
    obtain ⟨hpair, hready⟩ := h
    rw [List.cons_append, List.pairwise_cons] at hpair
    obtain ⟨r, hr, hdeps⟩ := hready k (by simp)
    obtain ⟨M2, pre, post, hM, hlen, hrun, hperm, hkeep⟩ := processReady_visit k M r hr hdeps
    have hpend : Pending (rest ++ todo) M2 := by
      refine ⟨hpair.2, ?_⟩
      intro j hj
      obtain ⟨s, hs, hsd⟩ := hready j (by simp [List.mem_append.1 hj])
      exact ⟨s, hkeep j s (hpair.1 j hj) hs hsd, hsd⟩
    obtain ⟨Mk, hMk, htodo, hkeys⟩ := ih todo M2 hpend
    refine ⟨Mk, by rw [hrun, hMk], ?_, ?_⟩
    · intro j hj s hs hsd
      exact htodo j hj s (hkeep j s (hpair.1 j (List.mem_append.2 (Or.inr hj))) hs hsd) hsd
    · have hvis : rest.filterMap (fun k => M2[k]?) = rest.filterMap (fun k => M[k]?) := by
        apply List.filterMap_congr
        intro j hj
        obtain ⟨s, hs, hsd⟩ := hready j (by simp [hj])
        rw [hs]
        exact hkeep j s (hpair.1 j (List.mem_append.2 (Or.inl hj))) hs hsd
      rw [hvis] at hkeys
      have h1 : (M2.map ReleaseSpec.identity).Perm ((pre ++ post).map ReleaseSpec.identity) := by
        have := hperm.map ReleaseSpec.identity
        rw [map_identity_pruned] at this
        exact this
      have h2 : (M.map ReleaseSpec.identity).Perm
          (r.identity :: (pre ++ post).map ReleaseSpec.identity) := by
        rw [hM, List.map_append, List.map_cons, List.map_append]
        exact List.perm_middle
      rw [List.filterMap_cons, hr]
      simp only [List.map_cons]
      exact (List.perm_middle.trans ((hkeys.trans h1).cons r.identity)).trans h2.symm

theorem scanReady_visits (M : List ReleaseSpec) (i : Nat) :
    (scanReady M i).filterMap (fun k => M[k - i]?) =
      M.filter (fun r => decide (r.Dependencies = [])) := by
  induction M generalizing i with
  | nil => simp [scanReady]
  | cons r rs ih =>
    have htail : (scanReady rs (i + 1)).filterMap (fun k => (r :: rs)[k - i]?) =
        rs.filter (fun r => decide (r.Dependencies = [])) := by
      rw [← ih (i + 1)]
      apply List.filterMap_congr
      intro k hk
      have := scanReady_ge rs (i + 1) k hk
      rw [show k - i = (k - (i + 1)) + 1 by omega]
      simp
    by_cases hr : r.Dependencies.length ≠ 0
    · have hne : ¬ r.Dependencies = [] := fun h => hr (by simp [h])
      rw [scanReady, if_pos hr, htail, List.filter_cons_of_neg (by simpa using hne)]
    · have he : r.Dependencies = [] := List.length_eq_zero.1 (by omega)
      rw [scanReady, if_neg hr, List.filterMap_cons, htail,
        List.filter_cons_of_pos (by simpa using he)]
      simp

theorem scanReady_complete (M : List ReleaseSpec) (i k : Nat) (r : ReleaseSpec)
    (h : M[k]? = some r) (hd : r.Dependencies = []) : k + i ∈ scanReady M i := by
  induction M generalizing i k with
  | nil => simp at h
  | cons a as ih =>
    cases k with
    | zero =>
      simp only [List.getElem?_cons_zero, Option.some.injEq] at h
      subst h
      have hr : ¬ a.Dependencies.length ≠ 0 := by simp [hd]
      rw [scanReady, if_neg hr]
      simp
    | succ k =>
      simp only [List.getElem?_cons_succ] at h
      have := ih (i + 1) k h
      rw [show k + 1 + i = k + (i + 1) by omega]
      rw [scanReady]
      split
      · exact this
      · exact List.mem_cons_of_mem _ this
theorem pending_suffix (done todo : List Nat) (M : List ReleaseSpec)
    (h : Pending (done ++ todo) M) : Pending todo M := by
  refine ⟨(List.pairwise_append.1 h.1).2.1, ?_⟩
  intro k hk
  exact h.2 k (List.mem_append.2 (Or.inr hk))

/-- C18: one pass of the outer loop of `CheckCircularDependencies` records exactly
the positions of the releases without dependencies; whenever the processing loop
comes to a recorded index, that index is in range and still holds the release it
held at the scan, which has no dependencies; the pass returns, and the surviving
collection has, as a multiset, the identity keys of the releases that had
dependencies at the scan. -/
theorem pass_removes_exactly_ready (M : List ReleaseSpec) :
    (∀ k, k ∈ scanReady M 0 ↔ ∃ r, M[k]? = some r ∧ r.Dependencies = []) ∧
    (∀ done k todo, (scanReady M 0).reverse = done ++ k :: todo →
      ∃ Mk r, processReady done M = .ok Mk ∧ Mk[k]? = some r ∧ M[k]? = some r ∧
        r.Dependencies = []) ∧
    (∃ M1, processReady (scanReady M 0).reverse M = .ok M1 ∧
      (M1.map ReleaseSpec.identity).Perm
        ((M.filter (fun r => decide (r.Dependencies ≠ []))).map ReleaseSpec.identity) ∧
      M1.length = (M.filter (fun r => decide (r.Dependencies ≠ []))).length) := by
  have hpend := scanReady_pending M
  refine ⟨?_, ?_, ?_⟩
  · intro k
    constructor
    · intro hk
      simpa using scanReady_points M 0 k hk
    · rintro ⟨r, hr, hd⟩
      simpa using scanReady_complete M 0 k r hr hd
  · intro done k todo hsplit
    rw [hsplit] at hpend
    obtain ⟨Mk, hMk, htodo, _⟩ := processReady_prefix done (k :: todo) M hpend
    obtain ⟨r, hr, hd⟩ := (pending_suffix done (k :: todo) M hpend).2 k (by simp)
    exact ⟨Mk, r, hMk, htodo k (by simp) r hr hd, hr, hd⟩
  · have hp := processReady_prefix (scanReady M 0).reverse [] M (by simpa using hpend)
    obtain ⟨M1, hM1, _, hkeys⟩ := hp
    have hvis : ((scanReady M 0).reverse.filterMap (fun k => M[k]?)).Perm
        (M.filter (fun r => decide (r.Dependencies = []))) := by
      have h1 := scanReady_visits M 0
      simp only [Nat.sub_zero] at h1
      rw [← h1]
      exact (List.reverse_perm _).filterMap _
    have hsplit : (M.filter (fun r => decide (r.Dependencies ≠ [])) ++
        M.filter (fun r => decide (r.Dependencies = []))).Perm M := by
      have := List.filter_append_perm (fun r : ReleaseSpec => decide (r.Dependencies ≠ [])) M
      refine List.Perm.trans ?_ this
      apply List.Perm.of_eq
      congr 1
      apply List.filter_congr
      intro r _
      simp
    have hperm : (M1.map ReleaseSpec.identity).Perm
        ((M.filter (fun r => decide (r.Dependencies ≠ []))).map ReleaseSpec.identity) := by
      have h2 := hkeys.trans (hsplit.map ReleaseSpec.identity).symm
      rw [List.map_append] at h2
      have h3 := (List.Perm.append_left (M1.map ReleaseSpec.identity)
        (hvis.map ReleaseSpec.identity)).symm.trans h2
      exact (List.perm_append_right_iff _).1 h3
    refine ⟨M1, hM1, hperm, ?_⟩
    simpa using hperm.length_eq
/-! ## The override merger without faults -/

theorem markOverrides_length (split : String → String → String × String) (os : List String) :
    ∀ (r : ReleaseSpec) (cur : List Bool), (markOverrides split os r cur).length = cur.length := by
  induction os with
  | nil => intro r cur; cases cur <;> rfl
  | cons o os ih =>
    intro r cur
    cases cur with
    | nil => rfl
    | cons b bs => simp [markOverrides, ih]

theorem overrideInner_eq (split : String → String → String × String) (os : List String) :
    ∀ (pre cur : List Bool) (r : ReleaseSpec), cur.length = os.length →
      overrideInner split os pre.length r (pre ++ cur) =
        .ok (os.foldl (applyOverride split) r, pre ++ markOverrides split os r cur) := by
  induction os with
  | nil =>
    intro pre cur r hlen
    have : cur = [] := List.length_eq_zero.1 hlen
    subst this
    rfl
  | cons o os ih =>
    intro pre cur r hlen
    cases cur with
    | nil => simp at hlen
    | cons b bs =>
      have hbs : bs.length = os.length := by simpa using hlen
      by_cases hf : r.ChartName = (split o "=").1 ∧ r.ChartVersion ≠ (split o "=").2
      · have hfires : fires split r o = true := by simp [fires, hf]
        have hset : setAt (pre ++ b :: bs) (pre.length : Int) true =
            .ok ((pre ++ [true]) ++ bs) := by
          rw [setAt_nat _ _ _ (by simp)]
          simp
        have hi : pre.length + 1 = (pre ++ [true]).length := by simp
        simp only [overrideInner, if_pos hf, hset, bind, Except.bind]
        rw [hi, ih (pre ++ [true]) bs _ hbs]
        simp [markOverrides, applyOverride, hfires]
      · have hfires : fires split r o = false := by simp [fires, hf]
        have hi : pre.length + 1 = (pre ++ [b]).length := by simp
        have hsplit : pre ++ b :: bs = (pre ++ [b]) ++ bs := by simp
        simp only [overrideInner, if_neg hf]
        rw [hi, hsplit, ih (pre ++ [b]) bs _ hbs]
        simp [markOverrides, applyOverride, hfires]

theorem overrideOuter_eq (split : String → String → String × String) (os : List String)
    (rs : List ReleaseSpec) : ∀ (out : List ReleaseSpec) (found : List Bool),
      found.length = os.length →
      overrideOuter split os rs out found =
        .ok (out ++ rs.map (fun r => os.foldl (applyOverride split) r),
          rs.foldl (fun f r => markOverrides split os r f) found) := by
  induction rs with
  | nil => intro out found _; simp [overrideOuter, pure, Except.pure]
  | cons r rs ih =>
    intro out found hlen
    have h := overrideInner_eq split os [] found r hlen
    simp only [List.length_nil, List.nil_append] at h
    simp only [overrideOuter, h, bind, Except.bind]
    rw [ih _ _ (by rw [markOverrides_length]; exact hlen)]
    simp

theorem appendMissing_eq (split : String → String → String × String) (env : String)
    (os : List String) : ∀ (pre cur : List Bool) (out : List ReleaseSpec),
      cur.length = os.length →
      appendMissing split env (pre ++ cur) os pre.length out =
        .ok (out ++ ((cur.zip os).filter (fun p => !p.1)).map
          (fun p => synthesize split env p.2)) := by
  induction os with
  | nil => intro pre cur out _; simp [appendMissing, pure, Except.pure]
  | cons o os ih =>
    intro pre cur out hlen
    cases cur with
    | nil => simp at hlen
    | cons b bs =>
      have hbs : bs.length = os.length := by simpa using hlen
      have hget : getAt (pre ++ b :: bs) (pre.length : Int) = .ok b := by
        apply getAt_nat
        rw [List.getElem?_append_right (le_refl _)]
        simp
      have hi : pre.length + 1 = (pre ++ [b]).length := by simp
      have hsplit : pre ++ b :: bs = (pre ++ [b]) ++ bs := by simp
      simp only [appendMissing, hget, bind, Except.bind]
      rw [hi, hsplit]
      cases b with
      | true =>
        simp only [if_true]
        rw [ih (pre ++ [true]) bs _ hbs]
        simp
      | false =>
        simp only [Bool.false_eq_true, if_false]
        rw [ih (pre ++ [false]) bs _ hbs]
        simp [synthesize]

theorem foldl_markOverrides_length (split : String → String → String × String)
    (os : List String) (rs : List ReleaseSpec) : ∀ found : List Bool,
      (rs.foldl (fun f r => markOverrides split os r f) found).length = found.length := by
  induction rs with
  | nil => intro found; rfl
  | cons r rs ih =>
    intro found
    rw [List.foldl_cons, ih, markOverrides_length]

/-- The merger returns: the baseline with every override applied in turn,
followed by the releases synthesized for the overrides whose flag stayed unset. -/
theorem OverrideReleases_eq (split : String → String → String × String)
    (rs : List ReleaseSpec) (os : List String) (env : String) :
    OverrideReleases split rs os env =
      .ok (rs.map (fun r => os.foldl (applyOverride split) r) ++
        (((rs.foldl (fun f r => markOverrides split os r f)
            (List.replicate os.length false)).zip os).filter (fun p => !p.1)).map
          (fun p => synthesize split env p.2)) := by
  by_cases hos : os.length = 0
  · have : os = [] := List.length_eq_zero.1 hos
    subst this
    simp [OverrideReleases, pure, Except.pure]
  · simp only [OverrideReleases, if_neg hos, bind, Except.bind]
    rw [overrideOuter_eq split os rs [] _ (by simp)]
    simp only [List.nil_append]
    have h := appendMissing_eq split env os []
      (rs.foldl (fun f r => markOverrides split os r f) (List.replicate os.length false))
      (rs.map (fun r => os.foldl (applyOverride split) r))
      (by rw [foldl_markOverrides_length]; simp)
    simpa using h
/-! ## The override merger when the overrides name distinct charts -/

theorem applyOverride_frame (split : String → String → String × String) (r : ReleaseSpec)
    (o : String) :
    (applyOverride split r o).ReleaseName = r.ReleaseName ∧
    (applyOverride split r o).ChartName = r.ChartName ∧
    (applyOverride split r o).Dependencies = r.Dependencies := by
  by_cases hf : fires split r o = true
  · have hname : r.ChartName = (split o "=").1 := by
      simp only [fires, decide_eq_true_eq] at hf
      exact hf.1
    simp [applyOverride, hf, hname]
  · simp [applyOverride, hf]

theorem foldl_applyOverride_frame (split : String → String → String × String)
    (os : List String) : ∀ r : ReleaseSpec,
    (os.foldl (applyOverride split) r).ReleaseName = r.ReleaseName ∧
    (os.foldl (applyOverride split) r).ChartName = r.ChartName ∧
    (os.foldl (applyOverride split) r).Dependencies = r.Dependencies := by
  induction os with
  | nil => intro r; exact ⟨rfl, rfl, rfl⟩
  | cons o os ih =>
    intro r
    obtain ⟨h1, h2, h3⟩ := ih (applyOverride split r o)
    obtain ⟨g1, g2, g3⟩ := applyOverride_frame split r o
    rw [List.foldl_cons]
    exact ⟨h1.trans g1, h2.trans g2, h3.trans g3⟩

theorem fires_of_not_named (split : String → String → String × String) (r : ReleaseSpec)
    (o : String) (h : (split o "=").1 ≠ r.ChartName) : fires split r o = false := by
  simp only [fires, decide_eq_false_iff_not, not_and]
  intro he
  exact absurd he.symm h

theorem applyOverride_of_not_named (split : String → String → String × String)
    (r : ReleaseSpec) (o : String) (h : (split o "=").1 ≠ r.ChartName) :
    applyOverride split r o = r := by
  simp [applyOverride, fires_of_not_named split r o h]

theorem foldl_applyOverride_of_not_named (split : String → String → String × String)
    (os : List String) (r : ReleaseSpec) (h : ∀ o ∈ os, (split o "=").1 ≠ r.ChartName) :
    os.foldl (applyOverride split) r = r := by
  induction os with
  | nil => rfl
  | cons o os ih =>
    rw [List.foldl_cons, applyOverride_of_not_named split r o (h o (by simp))]
    exact ih (fun o' ho' => h o' (by simp [ho']))

theorem applyOverride_version (split : String → String → String × String) (r : ReleaseSpec)
    (o : String) (h : (split o "=").1 = r.ChartName) :
    (applyOverride split r o).ChartVersion = (split o "=").2 := by
  by_cases hf : fires split r o = true
  · simp [applyOverride, hf]
  · have hv : r.ChartVersion = (split o "=").2 := by
      simp only [fires, decide_eq_true_eq, not_and, not_not] at hf
      exact hf h.symm
    simp [applyOverride, hf, hv]

theorem foldl_applyOverride_version (split : String → String → String × String)
    (os : List String) (hnd : (os.map (fun o => (split o "=").1)).Nodup) :
    ∀ (r : ReleaseSpec) (o : String), o ∈ os → (split o "=").1 = r.ChartName →
      (os.foldl (applyOverride split) r).ChartVersion = (split o "=").2 := by
  induction os with
  | nil => intro r o ho; simp at ho
  | cons o0 os ih =>
    intro r o ho hname
    rw [List.map_cons, List.nodup_cons] at hnd
    rw [List.foldl_cons]
    rcases List.mem_cons.1 ho with rfl | hmem
    · have hrest : ∀ o' ∈ os, (split o' "=").1 ≠ (applyOverride split r o).ChartName := by
        intro o' ho' he
        apply hnd.1
        rw [(applyOverride_frame split r o).2.1, ← hname] at he
        rw [← he]
        exact List.mem_map_of_mem (fun o => (split o "=").1) ho'
      rw [foldl_applyOverride_of_not_named split os _ hrest]
      exact applyOverride_version split r o hname
    · have hne : (split o0 "=").1 ≠ r.ChartName := by
        intro he
        apply hnd.1
        rw [he, ← hname]
        exact List.mem_map_of_mem (fun o => (split o "=").1) hmem
      rw [applyOverride_of_not_named split r o0 hne]
      exact ih hnd.2 r o hmem hname

theorem markOverrides_of_not_named (split : String → String → String × String)
    (os : List String) (r : ReleaseSpec) (h : ∀ o ∈ os, (split o "=").1 ≠ r.ChartName) :
    ∀ cur : List Bool, markOverrides split os r cur = cur := by
  induction os with
  | nil => intro cur; cases cur <;> rfl
  | cons o os ih =>
    intro cur
    cases cur with
    | nil => rfl
    | cons b bs =>
      rw [markOverrides, fires_of_not_named split r o (h o (by simp)),
        applyOverride_of_not_named split r o (h o (by simp)),
        ih (fun o' ho' => h o' (by simp [ho']))]
      simp

theorem zipWith_fires_of_not_named (split : String → String → String × String)
    (os : List String) (r : ReleaseSpec) (h : ∀ o ∈ os, (split o "=").1 ≠ r.ChartName) :
    ∀ cur : List Bool, cur.length = os.length →
      List.zipWith (fun b o => b || fires split r o) cur os = cur := by
  induction os with
  | nil =>
    intro cur hlen
    have : cur = [] := List.length_eq_zero.1 hlen
    subst this
    rfl
  | cons o os ih =>
    intro cur hlen
    cases cur with
    | nil => simp at hlen
    | cons b bs =>
      rw [List.zipWith_cons_cons, fires_of_not_named split r o (h o (by simp)),
        ih (fun o' ho' => h o' (by simp [ho'])) bs (by simpa using hlen)]
      simp

theorem markOverrides_distinct (split : String → String → String × String)
    (os : List String) (hnd : (os.map (fun o => (split o "=").1)).Nodup) (r : ReleaseSpec) :
    ∀ cur : List Bool, cur.length = os.length →
      markOverrides split os r cur = List.zipWith (fun b o => b || fires split r o) cur os := by
  induction os with
  | nil =>
    intro cur hlen
    have : cur = [] := List.length_eq_zero.1 hlen
    subst this
    rfl
  | cons o os ih =>
    intro cur hlen
    rw [List.map_cons, List.nodup_cons] at hnd
    cases cur with
    | nil => simp at hlen
    | cons b bs =>
      have hbs : bs.length = os.length := by simpa using hlen
      rw [markOverrides, List.zipWith_cons_cons]
      congr 1
      by_cases hname : (split o "=").1 = r.ChartName
      · have hrest : ∀ o' ∈ os, (split o' "=").1 ≠ r.ChartName := by
          intro o' ho' he
          apply hnd.1
          rw [hname, ← he]
          exact List.mem_map_of_mem (fun o => (split o "=").1) ho'
        have hrest2 : ∀ o' ∈ os, (split o' "=").1 ≠ (applyOverride split r o).ChartName := by
          intro o' ho'
          rw [(applyOverride_frame split r o).2.1]
          exact hrest o' ho'
        rw [markOverrides_of_not_named split os _ hrest2,
          zipWith_fires_of_not_named split os r hrest bs hbs]
      · rw [applyOverride_of_not_named split r o hname]
        exact ih hnd.2 bs hbs

theorem foldl_markOverrides_distinct (split : String → String → String × String)
    (os : List String) (hnd : (os.map (fun o => (split o "=").1)).Nodup)
    (rs : List ReleaseSpec) : ∀ found : List Bool, found.length = os.length →
      rs.foldl (fun f r => markOverrides split os r f) found =
        List.zipWith (fun b o => b || rs.any (fun r => fires split r o)) found os := by
  induction rs with
  | nil =>
    intro found hlen
    simp only [List.foldl_nil, List.any_nil, Bool.or_false]
    clear hnd
    induction os generalizing found with
    | nil =>
      have : found = [] := List.length_eq_zero.1 hlen
      subst this
      rfl
    | cons o os ih2 =>
      cases found with
      | nil => simp at hlen
      | cons b bs =>
        rw [List.zipWith_cons_cons, ← ih2 bs (by simpa using hlen)]
  | cons r rs ih =>
    intro found hlen
    rw [List.foldl_cons, markOverrides_distinct split os hnd r found hlen,
      ih _ (by simp [hlen])]
    clear ih hnd
    induction os generalizing found with
    | nil =>
      have : found = [] := List.length_eq_zero.1 hlen
      subst this
      rfl
    | cons o os ih2 =>
      cases found with
      | nil => simp at hlen
      | cons b bs =>
        simp only [List.zipWith_cons_cons, List.any_cons]
        rw [ih2 bs (by simpa using hlen)]
        simp [Bool.or_assoc]

theorem zip_filter_unset (split : String → String → String × String) (env : String)
    (g : String → Bool) (os : List String) :
    (((List.zipWith (fun b o => b || g o) (List.replicate os.length false) os).zip os).filter
        (fun p => !p.1)).map (fun p => synthesize split env p.2) =
      (os.filter (fun o => !g o)).map (synthesize split env) := by
  induction os with
  | nil => rfl
  | cons o os ih =>
    simp only [List.length_cons, List.replicate_succ, List.zipWith_cons_cons, List.zip_cons_cons,
      Bool.false_or]
    cases hg : g o with
    | true =>
      rw [List.filter_cons_of_neg (by simp [hg]), List.filter_cons_of_neg (by simp [hg])]
      exact ih
    | false =>
      rw [List.filter_cons_of_pos (by simp [hg]), List.filter_cons_of_pos (by simp [hg])]
      simp only [List.map_cons]
      rw [ih]

/-- With overrides that name pairwise distinct charts, an override is synthesized
exactly when its test fails on every baseline release. -/
theorem OverrideReleases_distinct (split : String → String → String × String)
    (rs : List ReleaseSpec) (os : List String) (env : String)
    (hnd : (os.map (fun o => (split o "=").1)).Nodup) :
    OverrideReleases split rs os env =
      .ok (rs.map (fun r => os.foldl (applyOverride split) r) ++
        (os.filter (fun o => !rs.any (fun r => fires split r o))).map
          (synthesize split env)) := by
  rw [OverrideReleases_eq, foldl_markOverrides_distinct split os hnd rs _ (by simp),
    zip_filter_unset split env (fun o => rs.any (fun r => fires split r o)) os]
/-! ## The override merger: the merged list -/

/-- C12: when the overrides name pairwise distinct charts, `OverrideReleases`
returns the baseline, in its order and length and with `ReleaseName`, `ChartName`
and `Dependencies` untouched, followed by one synthesized release (`env-chart`,
chart, version, no dependencies) for every override, in override order, for which
no baseline release has its chart name and another version.  With no overrides
the result is the baseline, and Scenario D evaluates as the spec says. -/
theorem OverrideReleases_structure (split : String → String → String × String)
    (releases : List ReleaseSpec) (overrides : List String) (env : String)
    (hnd : (overrides.map (fun o => (split o "=").1)).Nodup) :
    (∃ updated, OverrideReleases split releases overrides env =
        .ok (updated ++
          (overrides.filter (fun o => !releases.any (fun r =>
            decide (r.ChartName = (split o "=").1 ∧ r.ChartVersion ≠ (split o "=").2)))).map
            (fun o => { ReleaseName := env ++ "-" ++ (split o "=").1,
                        ChartName := (split o "=").1, ChartVersion := (split o "=").2,
                        Dependencies := [] })) ∧
      updated.length = releases.length ∧
      List.Forall₂ (fun u r => u.ReleaseName = r.ReleaseName ∧ u.ChartName = r.ChartName ∧
        u.Dependencies = r.Dependencies) updated releases) ∧
    OverrideReleases split releases [] env = .ok releases ∧
    OverrideReleases SplitInTwo scenarioDBaseline ["x=2", "y=1"] "prod" =
      .ok [ { ReleaseName := "prod-x", ChartName := "x", ChartVersion := "2",
              Dependencies := [] },
            { ReleaseName := "prod-y", ChartName := "y", ChartVersion := "1",
              Dependencies := [] } ] := by
  refine ⟨⟨releases.map (fun r => overrides.foldl (applyOverride split) r),
    OverrideReleases_distinct split releases overrides env hnd, by simp, ?_⟩, rfl, rfl⟩
  rw [List.forall₂_map_left_iff, List.forall₂_same]
  intro r _
  exact foldl_applyOverride_frame split overrides r

theorem OverrideReleases_structure_witness :
    (["x=2", "y=1"].map (fun o => (SplitInTwo o "=").1)).Nodup ∧
    ((∃ updated, OverrideReleases SplitInTwo scenarioDBaseline ["x=2", "y=1"] "prod" =
        .ok (updated ++
          (["x=2", "y=1"].filter (fun o => !scenarioDBaseline.any (fun r =>
            decide (r.ChartName = (SplitInTwo o "=").1 ∧
              r.ChartVersion ≠ (SplitInTwo o "=").2)))).map
            (fun o => { ReleaseName := "prod" ++ "-" ++ (SplitInTwo o "=").1,
                        ChartName := (SplitInTwo o "=").1,
                        ChartVersion := (SplitInTwo o "=").2,
                        Dependencies := [] })) ∧
      updated.length = scenarioDBaseline.length ∧
      List.Forall₂ (fun u r => u.ReleaseName = r.ReleaseName ∧ u.ChartName = r.ChartName ∧
        u.Dependencies = r.Dependencies) updated scenarioDBaseline) ∧
    OverrideReleases SplitInTwo scenarioDBaseline [] "prod" = .ok scenarioDBaseline ∧
    OverrideReleases SplitInTwo scenarioDBaseline ["x=2", "y=1"] "prod" =
      .ok [ { ReleaseName := "prod-x", ChartName := "x", ChartVersion := "2",
              Dependencies := [] },
            { ReleaseName := "prod-y", ChartName := "y", ChartVersion := "1",
              Dependencies := [] } ]) :=
  ⟨by decide,
    OverrideReleases_structure SplitInTwo scenarioDBaseline ["x=2", "y=1"] "prod" (by decide)⟩

/-- C13: when the overrides name pairwise distinct charts, the i-th release of
the result of `OverrideReleases`, for `i` below the baseline length, has the
`ReleaseName`, `ChartName` and `Dependencies` of the i-th baseline release; its
`ChartVersion` is the version of the override that names its chart when there is
one, and the baseline's own version otherwise. -/
theorem OverrideReleases_frame (split : String → String → String × String)
    (releases : List ReleaseSpec) (overrides : List String) (env : String)
    (hnd : (overrides.map (fun o => (split o "=").1)).Nodup) :
    ∃ out, OverrideReleases split releases overrides env = .ok out ∧
      ∀ (i : Nat) (r : ReleaseSpec), releases[i]? = some r →
        ∃ u, out[i]? = some u ∧ u.ReleaseName = r.ReleaseName ∧
          u.ChartName = r.ChartName ∧ u.Dependencies = r.Dependencies ∧
          (∀ o ∈ overrides, (split o "=").1 = r.ChartName →
            u.ChartVersion = (split o "=").2) ∧
          ((∀ o ∈ overrides, (split o "=").1 ≠ r.ChartName) →
            u.ChartVersion = r.ChartVersion) := by
  refine ⟨_, OverrideReleases_distinct split releases overrides env hnd, ?_⟩
  intro i r hr
  have hi : i < releases.length := (List.getElem?_eq_some.1 hr).1
  obtain ⟨h1, h2, h3⟩ := foldl_applyOverride_frame split overrides r
  refine ⟨overrides.foldl (applyOverride split) r, ?_, h1, h2, h3, ?_, ?_⟩
  · rw [List.getElem?_append_left (by simpa using hi)]
    simp [hr]
  · intro o ho hname
    exact foldl_applyOverride_version split overrides hnd r o ho hname
  · intro hnone
    rw [foldl_applyOverride_of_not_named split overrides r hnone]

theorem OverrideReleases_frame_witness :
    (["x=2", "y=1"].map (fun o => (SplitInTwo o "=").1)).Nodup ∧
    ∃ out, OverrideReleases SplitInTwo scenarioDBaseline ["x=2", "y=1"] "prod" = .ok out ∧
      ∀ (i : Nat) (r : ReleaseSpec), scenarioDBaseline[i]? = some r →
        ∃ u, out[i]? = some u ∧ u.ReleaseName = r.ReleaseName ∧
          u.ChartName = r.ChartName ∧ u.Dependencies = r.Dependencies ∧
          (∀ o ∈ ["x=2", "y=1"], (SplitInTwo o "=").1 = r.ChartName →
            u.ChartVersion = (SplitInTwo o "=").2) ∧
          ((∀ o ∈ ["x=2", "y=1"], (SplitInTwo o "=").1 ≠ r.ChartName) →
            u.ChartVersion = r.ChartVersion) :=
  ⟨by decide,
    OverrideReleases_frame SplitInTwo scenarioDBaseline ["x=2", "y=1"] "prod" (by decide)⟩
/-! ## The override merger: how many releases carry an overridden chart -/

theorem countP_key_le_one {α : Type} (l : List α) (f : α → String)
    (hnd : (l.map f).Nodup) (c : String) :
    l.countP (fun y => decide (f y = c)) ≤ 1 := by
  induction l with
  | nil => simp
  | cons a as ih =>
    rw [List.map_cons, List.nodup_cons] at hnd
    rw [List.countP_cons]
    by_cases hac : f a = c
    · have h0 : as.countP (fun y => decide (f y = c)) = 0 := by
        rw [List.countP_eq_zero]
        intro s hs hsc
        apply hnd.1
        rw [hac, ← of_decide_eq_true hsc]
        exact List.mem_map_of_mem f hs
      rw [h0]
      split <;> omega
    · have := ih hnd.2
      simp only [hac, decide_False, Bool.false_eq_true, if_false]
      omega

theorem countP_updated_name (split : String → String → String × String)
    (rs : List ReleaseSpec) (os : List String) (c : String) :
    (rs.map (fun r => os.foldl (applyOverride split) r)).countP
        (fun s => decide (s.ChartName = c)) =
      rs.countP (fun s => decide (s.ChartName = c)) := by
  rw [List.countP_map]
  apply List.countP_congr
  intro r _
  simp only [Function.comp_apply, (foldl_applyOverride_frame split os r).2.1]

theorem countP_appended_name_le (split : String → String → String × String) (env : String)
    (os : List String) (hnd : (os.map (fun o => (split o "=").1)).Nodup) (g : String → Bool)
    (c : String) :
    ((os.filter g).map (synthesize split env)).countP (fun s => decide (s.ChartName = c))
      ≤ 1 := by
  rw [List.countP_map]
  have h1 : (os.filter g).countP ((fun s => decide (s.ChartName = c)) ∘ synthesize split env) ≤
      os.countP ((fun s => decide (s.ChartName = c)) ∘ synthesize split env) :=
    (List.filter_sublist os).countP_le _
  exact le_trans h1 (countP_key_le_one os (fun o => (split o "=").1) hnd c)

theorem not_fires_of_same_version (split : String → String → String × String)
    (rs : List ReleaseSpec) (hndB : (rs.map (fun r => r.ChartName)).Nodup)
    (r : ReleaseSpec) (o : String) (hr : r ∈ rs) (hname : (split o "=").1 = r.ChartName)
    (hver : (split o "=").2 = r.ChartVersion) :
    rs.any (fun s => fires split s o) = false := by
  rw [List.any_eq_false]
  intro s hs hf
  simp only [fires, decide_eq_true_eq] at hf
  have : s = r := release_eq_of_name rs hndB s r hs hr (hf.1.trans hname)
  subst this
  exact hf.2 hver.symm

/-- C14: for a baseline with pairwise distinct chart names that holds a release
`r`, and overrides naming pairwise distinct charts among which one names the
chart of `r` at the version `r` already has, `OverrideReleases` returns the
baseline part with `r` unchanged in it and an appended part that holds the
synthesized release (`env-chart`, chart, version); two releases of the result
have that chart name and version. -/
theorem OverrideReleases_same_version_duplicates
    (split : String → String → String × String)
    (releases : List ReleaseSpec) (overrides : List String) (env : String)
    (r : ReleaseSpec) (o : String)
    (hndB : (releases.map (fun r => r.ChartName)).Nodup)
    (hndO : (overrides.map (fun o => (split o "=").1)).Nodup)
    (hr : r ∈ releases) (ho : o ∈ overrides)
    (hname : (split o "=").1 = r.ChartName) (hver : (split o "=").2 = r.ChartVersion) :
    ∃ updated appended, OverrideReleases split releases overrides env =
        .ok (updated ++ appended) ∧
      updated.length = releases.length ∧ r ∈ updated ∧
      { ReleaseName := env ++ "-" ++ r.ChartName, ChartName := r.ChartName,
        ChartVersion := r.ChartVersion, Dependencies := [] } ∈ appended ∧
      (updated ++ appended).countP
        (fun s => decide (s.ChartName = r.ChartName ∧ s.ChartVersion = r.ChartVersion)) = 2 := by
  have hnf := not_fires_of_same_version split releases hndB r o hr hname hver
  have hrfix : overrides.foldl (applyOverride split) r = r := by
    have h1 := foldl_applyOverride_frame split overrides r
    have h2 := foldl_applyOverride_version split overrides hndO r o ho hname
    rw [hver] at h2
    generalize overrides.foldl (applyOverride split) r = u at h1 h2
    cases u
    cases r
    simp only at h1 h2
    simp [h1.1, h1.2.1, h1.2.2, h2]
  have hsyn : synthesize split env o =
      { ReleaseName := env ++ "-" ++ r.ChartName, ChartName := r.ChartName,
        ChartVersion := r.ChartVersion, Dependencies := [] } := by
    simp [synthesize, hname, hver]
  have hrup : r ∈ releases.map (fun r => overrides.foldl (applyOverride split) r) :=
    List.mem_map.2 ⟨r, hr, hrfix⟩
  have hoapp : synthesize split env o ∈
      (overrides.filter (fun o => !releases.any (fun r => fires split r o))).map
        (synthesize split env) :=
    List.mem_map_of_mem _ (List.mem_filter.2 ⟨ho, by simp [hnf]⟩)
  refine ⟨_, _, OverrideReleases_distinct split releases overrides env hndO, by simp, hrup,
    hsyn ▸ hoapp, ?_⟩
  rw [List.countP_append]
  have himp : ∀ (l : List ReleaseSpec),
      l.countP (fun s => decide (s.ChartName = r.ChartName ∧ s.ChartVersion = r.ChartVersion)) ≤
        l.countP (fun s => decide (s.ChartName = r.ChartName)) := by
    intro l
    apply List.countP_mono_left
    intro s _ hs
    simp only [decide_eq_true_eq] at hs ⊢
    exact hs.1
  have hu1 := himp (releases.map (fun r => overrides.foldl (applyOverride split) r))
  rw [countP_updated_name] at hu1
  have hu2 := countP_key_le_one releases (fun r => r.ChartName) hndB r.ChartName
  have hu3 : 0 < (releases.map (fun r => overrides.foldl (applyOverride split) r)).countP
      (fun s => decide (s.ChartName = r.ChartName ∧ s.ChartVersion = r.ChartVersion)) :=
    List.countP_pos_iff.2 ⟨r, hrup, by simp⟩
  have ha1 := himp ((overrides.filter (fun o => !releases.any (fun r => fires split r o))).map
    (synthesize split env))
  have ha2 := countP_appended_name_le split env overrides hndO
    (fun o => !releases.any (fun r => fires split r o)) r.ChartName
  have ha3 : 0 < ((overrides.filter (fun o => !releases.any (fun r => fires split r o))).map
      (synthesize split env)).countP
      (fun s => decide (s.ChartName = r.ChartName ∧ s.ChartVersion = r.ChartVersion)) :=
    List.countP_pos_iff.2 ⟨_, hoapp, by simp [synthesize, hname, hver]⟩
  omega

theorem OverrideReleases_same_version_duplicates_witness :
    (scenarioDBaseline.map (fun r => r.ChartName)).Nodup ∧
    (["x=1"].map (fun o => (SplitInTwo o "=").1)).Nodup ∧
    ({ ReleaseName := "prod-x", ChartName := "x", ChartVersion := "1",
       Dependencies := [] } : ReleaseSpec) ∈ scenarioDBaseline ∧
    "x=1" ∈ ["x=1"] ∧ (SplitInTwo "x=1" "=").1 = "x" ∧ (SplitInTwo "x=1" "=").2 = "1" ∧
    ∃ updated appended, OverrideReleases SplitInTwo scenarioDBaseline ["x=1"] "prod" =
        .ok (updated ++ appended) ∧
      updated.length = scenarioDBaseline.length ∧
      ({ ReleaseName := "prod-x", ChartName := "x", ChartVersion := "1",
         Dependencies := [] } : ReleaseSpec) ∈ updated ∧
      ({ ReleaseName := "prod" ++ "-" ++ "x", ChartName := "x", ChartVersion := "1",
         Dependencies := [] } : ReleaseSpec) ∈ appended ∧
      (updated ++ appended).countP
        (fun s => decide (s.ChartName = "x" ∧ s.ChartVersion = "1")) = 2 :=
  ⟨by decide, by decide, by decide, by decide, by decide, by decide,
    OverrideReleases_same_version_duplicates SplitInTwo scenarioDBaseline ["x=1"] "prod"
      { ReleaseName := "prod-x", ChartName := "x", ChartVersion := "1", Dependencies := [] }
      "x=1" (by decide) (by decide) (by decide) (by decide) (by decide) (by decide)⟩
/-- C11 as stated fails twice over.  With the overrides `x=2` and `x=3` on the
baseline `x` at version 1, both are applied in turn and the result holds no
release `x` at version 2.  With the override `x=1` on the same baseline the
result holds two releases `x` at version 1. -/
theorem OverrideReleases_not_exactly_one :
    (scenarioDBaseline.map (fun r => r.ChartName)).Nodup ∧
    SplitInTwo "x=2" "=" = ("x", "2") ∧
    OverrideReleases SplitInTwo scenarioDBaseline ["x=2", "x=3"] "prod" =
      .ok [ { ReleaseName := "prod-x", ChartName := "x", ChartVersion := "3",
              Dependencies := [] } ] ∧
    List.countP (fun s => decide (s.ChartName = "x" ∧ s.ChartVersion = "2"))
      [ ({ ReleaseName := "prod-x", ChartName := "x", ChartVersion := "3",
           Dependencies := [] } : ReleaseSpec) ] = 0 ∧
    SplitInTwo "x=1" "=" = ("x", "1") ∧
    OverrideReleases SplitInTwo scenarioDBaseline ["x=1"] "prod" =
      .ok [ { ReleaseName := "prod-x", ChartName := "x", ChartVersion := "1",
              Dependencies := [] },
            { ReleaseName := "prod-x", ChartName := "x", ChartVersion := "1",
              Dependencies := [] } ] ∧
    List.countP (fun s => decide (s.ChartName = "x" ∧ s.ChartVersion = "1"))
      [ ({ ReleaseName := "prod-x", ChartName := "x", ChartVersion := "1",
           Dependencies := [] } : ReleaseSpec),
        { ReleaseName := "prod-x", ChartName := "x", ChartVersion := "1",
          Dependencies := [] } ] = 2 := by
  refine ⟨by decide, by decide, rfl, by decide, by decide, rfl, by decide⟩

/-- C11 amended: for a baseline with pairwise distinct chart names and overrides
naming pairwise distinct charts, every override `c=v` for which the baseline has
no release `c` already at version `v` leaves exactly one release with chart name
`c` in the result of `OverrideReleases`, and that release has version `v`. -/
theorem OverrideReleases_complete (split : String → String → String × String)
    (releases : List ReleaseSpec) (overrides : List String) (env : String) (o : String)
    (hndB : (releases.map (fun r => r.ChartName)).Nodup)
    (hndO : (overrides.map (fun o => (split o "=").1)).Nodup)
    (ho : o ∈ overrides)
    (hno : ∀ r ∈ releases,
      ¬ (r.ChartName = (split o "=").1 ∧ r.ChartVersion = (split o "=").2)) :
    ∃ out, OverrideReleases split releases overrides env = .ok out ∧
      out.countP (fun s => decide (s.ChartName = (split o "=").1)) = 1 ∧
      out.countP (fun s => decide (s.ChartName = (split o "=").1 ∧
        s.ChartVersion = (split o "=").2)) = 1 := by
  refine ⟨_, OverrideReleases_distinct split releases overrides env hndO, ?_⟩
  have himp : ∀ (l : List ReleaseSpec),
      l.countP (fun s => decide (s.ChartName = (split o "=").1 ∧
        s.ChartVersion = (split o "=").2)) ≤
        l.countP (fun s => decide (s.ChartName = (split o "=").1)) := by
    intro l
    apply List.countP_mono_left
    intro s _ hs
    simp only [decide_eq_true_eq] at hs ⊢
    exact hs.1
  rw [List.countP_append, List.countP_append]
  have hu1 := himp (releases.map (fun r => overrides.foldl (applyOverride split) r))
  have hu2 := countP_updated_name split releases overrides (split o "=").1
  have hu3 := countP_key_le_one releases (fun r => r.ChartName) hndB (split o "=").1
  have ha1 := himp ((overrides.filter (fun o => !releases.any (fun r => fires split r o))).map
    (synthesize split env))
  have ha2 := countP_appended_name_le split env overrides hndO
    (fun o => !releases.any (fun r => fires split r o)) (split o "=").1
  by_cases hex : ∃ r ∈ releases, r.ChartName = (split o "=").1
  · obtain ⟨r, hr, hrc⟩ := hex
    have hfires : fires split r o = true := by
      simp only [fires, decide_eq_true_eq]
      exact ⟨hrc, fun hv => hno r hr ⟨hrc, hv⟩⟩
    have hany : releases.any (fun r => fires split r o) = true :=
      List.any_eq_true.2 ⟨r, hr, hfires⟩
    have hupd : 0 < (releases.map (fun r => overrides.foldl (applyOverride split) r)).countP
        (fun s => decide (s.ChartName = (split o "=").1 ∧
          s.ChartVersion = (split o "=").2)) := by
      refine List.countP_pos_iff.2 ⟨_, List.mem_map_of_mem _ hr, ?_⟩
      simp only [decide_eq_true_eq]
      exact ⟨(foldl_applyOverride_frame split overrides r).2.1.trans hrc,
        foldl_applyOverride_version split overrides hndO r o ho hrc.symm⟩
    have happ : ((overrides.filter (fun o => !releases.any (fun r => fires split r o))).map
        (synthesize split env)).countP
          (fun s => decide (s.ChartName = (split o "=").1)) = 0 := by
      rw [List.countP_eq_zero]
      intro s hs hsc
      obtain ⟨o', ho', rfl⟩ := List.mem_map.1 hs
      obtain ⟨ho'mem, ho'f⟩ := List.mem_filter.1 ho'
      have hsame : o' = o := by
        apply List.inj_on_of_nodup_map hndO ho'mem ho
        simpa [synthesize] using hsc
      rw [hsame, hany] at ho'f
      simp at ho'f
    omega
  · have hupd : (releases.map (fun r => overrides.foldl (applyOverride split) r)).countP
        (fun s => decide (s.ChartName = (split o "=").1)) = 0 := by
      rw [hu2, List.countP_eq_zero]
      intro r hr hrc
      exact hex ⟨r, hr, of_decide_eq_true hrc⟩
    have hany : releases.any (fun r => fires split r o) = false := by
      rw [List.any_eq_false]
      intro r hr hf
      simp only [fires, decide_eq_true_eq] at hf
      exact hex ⟨r, hr, hf.1⟩
    have happ : 0 < ((overrides.filter (fun o => !releases.any (fun r => fires split r o))).map
        (synthesize split env)).countP
          (fun s => decide (s.ChartName = (split o "=").1 ∧
            s.ChartVersion = (split o "=").2)) := by
      refine List.countP_pos_iff.2 ⟨_, List.mem_map_of_mem _
        (List.mem_filter.2 ⟨ho, by simp [hany]⟩), ?_⟩
      simp [synthesize]
    omega

theorem OverrideReleases_complete_witness :
    (scenarioDBaseline.map (fun r => r.ChartName)).Nodup ∧
    (["x=2", "y=1"].map (fun o => (SplitInTwo o "=").1)).Nodup ∧
    "x=2" ∈ ["x=2", "y=1"] ∧
    (∀ r ∈ scenarioDBaseline,
      ¬ (r.ChartName = (SplitInTwo "x=2" "=").1 ∧ r.ChartVersion = (SplitInTwo "x=2" "=").2)) ∧
    ∃ out, OverrideReleases SplitInTwo scenarioDBaseline ["x=2", "y=1"] "prod" = .ok out ∧
      out.countP (fun s => decide (s.ChartName = (SplitInTwo "x=2" "=").1)) = 1 ∧
      out.countP (fun s => decide (s.ChartName = (SplitInTwo "x=2" "=").1 ∧
        s.ChartVersion = (SplitInTwo "x=2" "=").2)) = 1 :=
  ⟨by decide, by decide, by decide, by decide,
    OverrideReleases_complete SplitInTwo scenarioDBaseline ["x=2", "y=1"] "prod" "x=2"
      (by decide) (by decide) (by decide) (by decide)⟩

end Orca
